import Mathlib

/-! treesize: the tree builder of `cmd/scan.go`.

A shallow embedding of `buildTree` and `getSize` over a finite model of the
filesystem, together with the properties of the tree they return.

* The filesystem is a finite tree `FS` that does not change during a scan; an
  entry records whether `os.Lstat` and `os.ReadDir` succeed on it.
* `int64` sizes are integers, and every addition the program performs wraps
  modulo `2^64` (`add64`).
* What lives outside the repository is a field of `Env`: `filepath.Join`,
  `sort.Slice` and the order in which the results channel delivers the children
  of a directory. Of `sort.Slice` only the contract is assumed (`Env.Lawful`):
  the output is a permutation of the input in which no element is `less` than
  one before it. `filepath.Walk` is modelled after its source.
* `buildTree` is the value a call returns when it returns. `stops` says when it
  does not (`numThreads <= 0`), `buildTreeRun` puts the two together, and the
  goroutines and the channel `sem` are the subject of the transition system
  `step`.
-/

namespace TreeSize

/-! ## Machine integers -/

/-- Two's complement wrap-around of an integer into the `int64` range. -/
def wrap64 (x : Int) : Int := (x + 9223372036854775808) % 18446744073709551616 - 9223372036854775808

/-- Go's `+` on `int64`. -/
def add64 (a b : Int) : Int := wrap64 (a + b)

/-! ## The filesystem -/

/-- Errors: the two sentinels of `path/filepath` and everything the OS reports. -/
inductive Err where
  | skipDir
  | skipAll
  | os (msg : String)
  deriving DecidableEq, Repr

/-- One entry of the filesystem, as `os.Lstat` and `os.ReadDir` see it.
* `file`: `Lstat` succeeds, `IsDir()` is false, `Size()` is `size`;
* `dir`: `Lstat` succeeds, `IsDir()` is true, `ReadDir` returns `entries`;
* `unreadable`: `Lstat` succeeds, `IsDir()` is true, `ReadDir` fails;
* `broken`: `Lstat` fails. -/
inductive FS where
  | file (name : String) (size : Int)
  | dir (name : String) (entries : List FS)
  | unreadable (name : String)
  | broken (name : String)
  deriving Repr

/-- The part of `os.FileInfo` the program reads. -/
structure FileInfo where
  Name : String
  IsDir : Bool
  Size : Int
  deriving DecidableEq, Repr

/-- Name under which an entry is listed by its parent. -/
def FS.name : FS → String
  | .file n _ => n
  | .dir n _ => n
  | .unreadable n => n
  | .broken n => n

/-- Model of `os.Lstat`. The size reported for a directory is never read by the program. -/
def lstat : FS → Except Err FileInfo
  | .file n s => .ok { Name := n, IsDir := false, Size := s }
  | .dir n _ => .ok { Name := n, IsDir := true, Size := 0 }
  | .unreadable n => .ok { Name := n, IsDir := true, Size := 0 }
  | .broken n => .error (.os ("lstat " ++ n))

/-- Model of `os.ReadDir`. -/
def readDir : FS → Except Err (List FS)
  | .dir _ es => .ok es
  | .unreadable n => .error (.os ("open " ++ n))
  | .file n _ => .error (.os ("readdir " ++ n))
  | .broken n => .error (.os ("open " ++ n))

/-! ## The result tree -/

/-- The `FileNode` struct of `scan.go`. -/
inductive FileNode where
  | mk (Name : String) (Path : String) (Size : Int) (IsDir : Bool) (Children : List FileNode)
  deriving Repr

def FileNode.Name : FileNode → String
  | .mk n _ _ _ _ => n

def FileNode.Path : FileNode → String
  | .mk _ p _ _ _ => p

def FileNode.Size : FileNode → Int
  | .mk _ _ s _ _ => s

def FileNode.IsDir : FileNode → Bool
  | .mk _ _ _ d _ => d

def FileNode.Children : FileNode → List FileNode
  | .mk _ _ _ _ c => c

/-- Everything `buildTree` takes from outside the repository. -/
structure Env where
  /-- Model of `filepath.Join`. -/
  join : String → String → String
  /-- Model of `sort.Slice` with the comparator `Children[i].Size > Children[j].Size`. -/
  sortSlice : List FileNode → List FileNode
  /-- The order in which the children of the directory at a path leave the results channel. -/
  arrival : String → List FileNode → List FileNode

/-- The contracts of the collaborators: `sort.Slice` permutes its input so that no later
element is `less` than an earlier one, and the channel delivers what was sent, each value
once, in some order. -/
structure Env.Lawful (env : Env) : Prop where
  sortSlice_perm : ∀ l, (env.sortSlice l).Perm l
  sortSlice_sorted : ∀ l, (env.sortSlice l).Pairwise (fun a b => ¬ (b.Size > a.Size))
  arrival_perm : ∀ p l, (env.arrival p l).Perm l

/-! ## `getSize` -/

mutual
/-- The unexported `walk` of `path/filepath`, with the visited state threaded through `fn`;
`info` is what `Lstat` returned for the entry, so the last case is never reached. -/
def walk {σ : Type} (fn : σ → Option FileInfo → Option Err → σ × Option Err)
    (info : FileInfo) : FS → σ → σ × Option Err
  | .dir _ es, s =>
    let r := fn s (some info) none
    match r.2 with
    | some e => (r.1, some e)
    | none => walkNames fn es r.1
  | .unreadable n, s => fn s (some info) (some (.os ("open " ++ n)))
  | .file _ _, s => fn s (some info) none
  | .broken _, s => fn s (some info) none
/-- The loop of `walk` over the names of a directory. -/
def walkNames {σ : Type} (fn : σ → Option FileInfo → Option Err → σ × Option Err) :
    List FS → σ → σ × Option Err
  | [], s => (s, none)
  | e :: es, s =>
    match lstat e with
    | .error err =>
      let r := fn s none (some err)
      match r.2 with
      | some e1 => if e1 = Err.skipDir then walkNames fn es r.1 else (r.1, some e1)
      | none => walkNames fn es r.1
    | .ok fileInfo =>
      let r := walk fn fileInfo e s
      match r.2 with
      | some e1 =>
        if !fileInfo.IsDir || e1 ≠ Err.skipDir then (r.1, some e1) else walkNames fn es r.1
      | none => walkNames fn es r.1
end

/-- Model of `filepath.Walk`. -/
def filepathWalk {σ : Type} (fn : σ → Option FileInfo → Option Err → σ × Option Err)
    (root : FS) (s : σ) : σ × Option Err :=
  let r :=
    match lstat root with
    | .error err => fn s none (some err)
    | .ok info => walk fn info root s
  if r.2 = some Err.skipDir ∨ r.2 = some Err.skipAll then (r.1, none) else r

/-- The closure `getSize` hands to `filepath.Walk`; the state is `total`. -/
def getSizeFn (total : Int) (info : Option FileInfo) (err : Option Err) : Int × Option Err :=
  match err with
  | some _ => (total, none)
  | none =>
    match info with
    | some i => if !i.IsDir then (add64 total i.Size, none) else (total, none)
    | none => (total, none)

/-- The function `getSize` of `scan.go`. -/
def getSize (path : FS) : Int × Option Err :=
  filepathWalk getSizeFn path 0

/-! ## `buildTree` -/

/-- The receive loop `for child := range results`: append the child, add its size. -/
def collect (arrived : List FileNode) : List FileNode × Int :=
  arrived.foldl (fun acc child => (acc.1 ++ [child], add64 acc.2 child.Size)) ([], 0)

/-- The slice expression `node.Children[:topN]` behind its guard. -/
def truncate (topN : Int) (children : List FileNode) : List FileNode :=
  if topN > 0 ∧ (children.length : Int) > topN then children.take topN.toNat else children

mutual
/-- The function `buildTree` of `scan.go`; `fs` is what the filesystem holds at `path`,
`minSize` is the package variable of that name. The result is the Go pair `(node, err)`. -/
def buildTree (env : Env) (minSize : Int) (maxDepth topN : Int) :
    FS → String → Int → Option FileNode × Option Err
  -- lines 71-74: `Lstat` fails
  | .broken n, _, _ => (none, some (.os ("lstat " ++ n)))
  -- lines 81-87: not a directory
  | .file n s, path, _ =>
    if s < minSize then (none, none)
    else (some (.mk n path s false []), none)
  | .unreadable n, path, depth =>
    -- lines 89-96: at or beyond `maxDepth`
    if maxDepth ≥ 0 ∧ depth ≥ maxDepth then
      let size := (getSize (.unreadable n)).1
      if size < minSize then (none, none)
      else (some (.mk n path size true []), none)
    -- lines 98-101: `ReadDir` fails
    else (some (.mk n path 0 true []), none)
  | .dir n es, path, depth =>
    -- lines 89-96: at or beyond `maxDepth`
    if maxDepth ≥ 0 ∧ depth ≥ maxDepth then
      let size := (getSize (.dir n es)).1
      if size < minSize then (none, none)
      else (some (.mk n path size true []), none)
    else
      -- lines 103-143: fan-out, receive loop, elision, sort, truncation
      let r := collect (env.arrival path (buildChildren env minSize maxDepth topN es path depth))
      if r.2 < minSize then (none, none)
      else (some (.mk n path r.2 true (truncate topN (env.sortSlice r.1))), none)
/-- The goroutines started for the entries of a directory: what they send to `results`,
in listing order. -/
def buildChildren (env : Env) (minSize : Int) (maxDepth topN : Int) :
    List FS → String → Int → List FileNode
  | [], _, _ => []
  | e :: es, path, depth =>
    let r := buildTree env minSize maxDepth topN e (env.join path e.name) (depth + 1)
    -- line 115: `if err == nil && child != nil`
    match r.2, r.1 with
    | none, some child => child :: buildChildren env minSize maxDepth topN es path depth
    | _, _ => buildChildren env minSize maxDepth topN es path depth
end

/-! ## The sort the Go library runs on short slices -/

/-- Inner loop of `insertionSortLessFunc`: `x` sits right of the sorted prefix, given
nearest element first, and is swapped leftwards while `less` holds. -/
def bubble (x : FileNode) : List FileNode → List FileNode
  | [] => [x]
  | y :: ys => if x.Size > y.Size then y :: bubble x ys else x :: y :: ys

/-- Model of `insertionSortLessFunc`, to which `sort.Slice` hands every slice of at most
twelve elements. -/
def insertionSort (l : List FileNode) : List FileNode :=
  (l.foldl (fun pre x => bubble x pre) []).reverse

/-! ## Views of a result tree -/

/-- Sum of the sizes of a list of nodes in `int64` arithmetic. -/
def sumSizes (l : List FileNode) : Int :=
  l.foldl (fun acc c => add64 acc c.Size) 0

mutual
/-- Every node of a tree with its recursion depth, the root being at depth `d`. -/
def nodesFrom : Int → FileNode → List (Int × FileNode)
  | d, .mk n p s b cs => (d, .mk n p s b cs) :: nodesFromList (d + 1) cs
/-- The nodes of a forest whose roots are at depth `d`. -/
def nodesFromList : Int → List FileNode → List (Int × FileNode)
  | _, [] => []
  | d, c :: cs => nodesFrom d c ++ nodesFromList d cs
end

/-- The nodes of the tree a call returned, none if it returned `nil`. -/
def resultNodes (depth : Int) (r : Option FileNode × Option Err) : List (Int × FileNode) :=
  match r.1 with
  | some t => nodesFrom depth t
  | none => []

/-- An environment: plain concatenation for `Join`, insertion sort, and children that
arrive in listing order. -/
def goEnv : Env where
  join := fun a b => a ++ "/" ++ b
  sortSlice := insertionSort
  arrival := fun _ l => l

/-- The environment `goEnv` with every directory's children arriving in reverse order. -/
def goEnvRev : Env where
  join := fun a b => a ++ "/" ++ b
  sortSlice := insertionSort
  arrival := fun _ l => l.reverse

/-! ## Measures of a filesystem -/

mutual
/-- Exact sum of the sizes of the non-directory entries a walk can reach. -/
def FS.bytes : FS → Int
  | .file _ s => s
  | .dir _ es => bytesList es
  | .unreadable _ => 0
  | .broken _ => 0
/-- Exact sum of `FS.bytes` over a listing. -/
def bytesList : List FS → Int
  | [] => 0
  | e :: es => e.bytes + bytesList es
end

/-- The size of an entry as the scan counts it: a file's own size, a directory's byte total
in `int64` arithmetic. -/
def FS.size64 : FS → Int
  | .file _ s => s
  | .dir _ es => wrap64 (bytesList es)
  | .unreadable _ => 0
  | .broken _ => 0

mutual
/-- Every entry of the subtree whose size is below `minSize`, the subtree itself included,
has size 0: what a scan elides holds no bytes. -/
def FS.belowAreEmpty (minSize : Int) : FS → Bool
  | .file _ s => decide (s < minSize → s = 0)
  | .dir _ es =>
    decide (wrap64 (bytesList es) < minSize → wrap64 (bytesList es) = 0)
      && belowAreEmptyList minSize es
  | .unreadable _ => true
  | .broken _ => true
/-- The predicate `FS.belowAreEmpty` on every entry of a listing. -/
def belowAreEmptyList (minSize : Int) : List FS → Bool
  | [] => true
  | e :: es => e.belowAreEmpty minSize && belowAreEmptyList minSize es
end

mutual
/-- Every file size of the subtree is an `int64` value, as `Size()` returns it. -/
def FS.sizesInt64 : FS → Bool
  | .file _ s => decide (-9223372036854775808 ≤ s ∧ s < 9223372036854775808)
  | .dir _ es => sizesInt64List es
  | .unreadable _ => true
  | .broken _ => true
/-- The predicate `FS.sizesInt64` on every entry of a listing. -/
def sizesInt64List : List FS → Bool
  | [] => true
  | e :: es => e.sizesInt64 && sizesInt64List es
end

mutual
/-- No `Lstat` and no `ReadDir` fails anywhere in the subtree. -/
def FS.noFailure : FS → Bool
  | .file _ _ => true
  | .dir _ es => noFailureList es
  | .unreadable _ => false
  | .broken _ => false
/-- The predicate `FS.noFailure` on every entry of a listing. -/
def noFailureList : List FS → Bool
  | [] => true
  | e :: es => e.noFailure && noFailureList es
end

/-- The filesystem of the scenario: `root` holds `a` (100 bytes), `b` (50 bytes) and `sub`,
which holds `c` (10 bytes). -/
def scenario : FS :=
  .dir "root" [.file "a" 100, .file "b" 50, .dir "sub" [.file "c" 10]]

/-- A directory with two files of the same size. -/
def ties : FS :=
  .dir "root" [.file "a" 10, .file "b" 10]

/-- A directory inside a directory: `root` holds `A`, which holds the file `f`. -/
def nested : FS :=
  .dir "root" [.dir "A" [.file "f" 1]]

/-- Two files of `2^62` bytes each in one directory. -/
def big : FS :=
  .dir "big" [.file "f1" 4611686018427387904, .file "f2" 4611686018427387904]

/-! ## Calls that do not return -/

/-- Why a call of `buildTree` does not return. -/
inductive Stop where
  /-- The call `make(chan struct{}, numThreads)` of line 105 with a negative size. -/
  | panic
  /-- The send `sem <- struct{}{}` of line 110 on a channel nobody receives from. -/
  | deadlock
  deriving DecidableEq, Repr

mutual
/-- Where a call of `buildTree` stops without returning, `none` when it returns. A call gets
to lines 105 and 110 only for a directory within the depth bound whose listing succeeds; it
waits for the goroutines of all its entries, so it returns only if their calls do. -/
def stops (numThreads maxDepth : Int) : FS → Int → Option Stop
  | .dir _ es, depth =>
    if maxDepth ≥ 0 ∧ depth ≥ maxDepth then none
    else if numThreads < 0 then some .panic
    else if numThreads = 0 ∧ es.isEmpty = false then some .deadlock
    else stopsList numThreads maxDepth es (depth + 1)
  | .file _ _, _ => none
  | .unreadable _, _ => none
  | .broken _, _ => none
/-- The first of the calls on the entries of a directory that does not return. -/
def stopsList (numThreads maxDepth : Int) : List FS → Int → Option Stop
  | [], _ => none
  | e :: es, depth =>
    match stops numThreads maxDepth e depth with
    | some s => some s
    | none => stopsList numThreads maxDepth es depth
end

/-- A call of `buildTree` run with the package variable `numThreads`: the pair it returns,
or the reason why it never returns. -/
def buildTreeRun (env : Env) (numThreads minSize maxDepth topN : Int) (fs : FS)
    (path : String) (depth : Int) : Except Stop (Option FileNode × Option Err) :=
  match stops numThreads maxDepth fs depth with
  | some s => .error s
  | none => .ok (buildTree env minSize maxDepth topN fs path depth)

/-- The children the goroutines of a call send to `results`: none unless the call is on a
directory whose listing succeeds. -/
def sent (env : Env) (minSize maxDepth topN : Int) : FS → String → Int → List FileNode
  | .dir _ es, path, depth => buildChildren env minSize maxDepth topN es path depth
  | _, _, _ => []

/-! ## Ties -/

/-- None of the first `k` sizes of the list occurs again later in the list. -/
def untiedPrefix : Nat → List Int → Bool
  | 0, _ => true
  | _ + 1, [] => true
  | k + 1, a :: t => t.all (fun b => decide (a ≠ b)) && untiedPrefix k t

mutual
/-- In every directory of the tree that the call returns, no child that is kept has the
`Size` of another child sent to that directory. Children that `topN` drops may tie with each
other, and what is inside a dropped or elided subtree does not matter. -/
def keptUntied (env : Env) (minSize maxDepth topN : Int) : FS → String → Int → Bool
  | .dir _ es, path, depth =>
    if maxDepth ≥ 0 ∧ depth ≥ maxDepth then true
    else if sumSizes (env.arrival path (buildChildren env minSize maxDepth topN es path depth))
        < minSize then true
    else
      untiedPrefix
        (truncate topN (env.sortSlice (env.arrival path
          (buildChildren env minSize maxDepth topN es path depth)))).length
        ((env.sortSlice (env.arrival path
          (buildChildren env minSize maxDepth topN es path depth))).map FileNode.Size)
      && keptUntiedList env minSize maxDepth topN
        ((truncate topN (env.sortSlice (env.arrival path
          (buildChildren env minSize maxDepth topN es path depth)))).map FileNode.Size)
        es path depth
  | .file _ _, _, _ => true
  | .unreadable _, _, _ => true
  | .broken _, _, _ => true
/-- The predicate `keptUntied` on the entries of a directory whose node is kept; the kept
children are those with one of the sizes `keptSizes`. -/
def keptUntiedList (env : Env) (minSize maxDepth topN : Int) (keptSizes : List Int) :
    List FS → String → Int → Bool
  | [], _, _ => true
  | e :: es, path, depth =>
    (match (buildTree env minSize maxDepth topN e (env.join path e.name) (depth + 1)).1 with
      | some c =>
        if c.Size ∈ keptSizes then
          keptUntied env minSize maxDepth topN e (env.join path e.name) (depth + 1)
        else true
      | none => true)
    && keptUntiedList env minSize maxDepth topN keptSizes es path depth
end

/-- A directory with a large file and two small files of the same size. -/
def smallTies : FS :=
  .dir "root" [.file "a" 100, .file "b" 5, .file "c" 5]

/-! ## The goroutines of a scan

The fan-out of `buildTree` as a transition system. A call that reached its loop over
`entries` owns the channel `sem` it made; the slots taken in it are the goroutines it
started that have not returned yet. -/

/-- A call of `buildTree` in progress: its depth, the entries of its loop not yet reached,
and the calls running in the goroutines it started. -/
inductive Call where
  | mk (depth : Int) (pending : List FS) (running : List Call)
  deriving Repr

/-- The state in which `buildTree` enters its loop: only a directory within the depth bound
whose listing succeeds has entries to go through. -/
def Call.start (maxDepth : Int) (depth : Int) : FS → Call
  | .dir _ es => if maxDepth ≥ 0 ∧ depth ≥ maxDepth then .mk depth [] [] else .mk depth es []
  | _ => .mk depth [] []

/-- What can happen next. -/
inductive Move where
  /-- The call takes a slot of its own `sem` and starts the goroutine of its next entry. -/
  | spawn
  /-- The `i`-th goroutine of the call returns from `buildTree` and frees its slot. -/
  | finish (i : Nat)
  /-- The call running in the `i`-th goroutine moves. -/
  | inside (i : Nat) (m : Move)
  deriving Repr

/-- A call has returned when its loop is over and every goroutine it started is done. -/
def Call.done : Call → Bool
  | .mk _ pending running => pending.isEmpty && running.isEmpty

/-- One move of a scan run with `numThreads` and `maxDepth`; `none` when the move is not
enabled (a send on a full `sem` blocks). -/
def step (numThreads maxDepth : Int) : Call → Move → Option Call
  | .mk depth (e :: es) running, .spawn =>
    if (running.length : Int) < numThreads then
      some (.mk depth es (running ++ [Call.start maxDepth (depth + 1) e]))
    else none
  | .mk _ [] _, .spawn => none
  | .mk depth pending running, .finish i =>
    match running.get? i with
    | some c => if c.done then some (.mk depth pending (running.eraseIdx i)) else none
    | none => none
  | .mk depth pending running, .inside i m =>
    match running.get? i with
    | some c =>
      match step numThreads maxDepth c m with
      | some c1 => some (.mk depth pending (running.set i c1))
      | none => none
    | none => none

/-- A sequence of moves from a state. -/
def run (numThreads maxDepth : Int) : Call → List Move → Option Call
  | c, [] => some c
  | c, m :: ms =>
    match step numThreads maxDepth c m with
    | some c1 => run numThreads maxDepth c1 ms
    | none => none

mutual
/-- Goroutines started below a call, at every depth, that have not returned. -/
def Call.inFlight : Call → Nat
  | .mk _ _ running => inFlightList running
/-- The goroutines of a list of running calls: each of them and what runs below it. -/
def inFlightList : List Call → Nat
  | [] => 0
  | c :: cs => 1 + c.inFlight + inFlightList cs
end

mutual
/-- Every call of the state holds at most `n` slots of its own `sem`. -/
def Call.slotsWithin (n : Int) : Call → Bool
  | .mk _ _ running => decide ((running.length : Int) ≤ n) && slotsWithinList n running
/-- The predicate `Call.slotsWithin` on every call of a list. -/
def slotsWithinList (n : Int) : List Call → Bool
  | [] => true
  | c :: cs => c.slotsWithin n && slotsWithinList n cs
end

mutual
/-- An upper bound on the moves a call on the entry can make, plus two. -/
def FS.weight : FS → Nat
  | .dir _ es => 2 + weightList es
  | _ => 2
/-- Sum of `FS.weight` over a listing. -/
def weightList : List FS → Nat
  | [] => 0
  | e :: es => e.weight + weightList es
end

mutual
/-- An upper bound on the moves left to a call. -/
def Call.work : Call → Nat
  | .mk _ pending running => weightList pending + workList running
/-- The moves left to a list of running calls, the return of each included. -/
def workList : List Call → Nat
  | [] => 0
  | c :: cs => 1 + c.work + workList cs
end

/-! ## Arithmetic of `int64` sums -/

theorem wrap64_of_inRange (x : Int) (h1 : -9223372036854775808 ≤ x)
    (h2 : x < 9223372036854775808) : wrap64 x = x := by
  unfold wrap64; omega

theorem wrap64_add_left (a b : Int) : wrap64 (wrap64 a + b) = wrap64 (a + b) := by
  unfold wrap64; omega

theorem wrap64_lower (x : Int) : -9223372036854775808 ≤ wrap64 x := by
  unfold wrap64; omega

theorem wrap64_upper (x : Int) : wrap64 x < 9223372036854775808 := by
  unfold wrap64; omega

theorem foldl_add64 (l : List FileNode) (a : Int) :
    l.foldl (fun acc c => add64 acc c.Size) (wrap64 a)
      = wrap64 (a + (l.map FileNode.Size).sum) := by
  induction l generalizing a with
  | nil => simp
  | cons x xs ih =>
    simp only [List.foldl_cons, List.map_cons, List.sum_cons]
    have h : add64 (wrap64 a) x.Size = wrap64 (a + x.Size) := by
      simp only [add64, wrap64_add_left]
    rw [h, ih]
    congr 1
    ring

theorem sumSizes_eq (l : List FileNode) :
    sumSizes l = wrap64 ((l.map FileNode.Size).sum) := by
  have h := foldl_add64 l 0
  have h0 : wrap64 0 = 0 := by decide
  rw [h0] at h
  simpa [sumSizes] using h

theorem sumSizes_perm {l₁ l₂ : List FileNode} (h : l₁.Perm l₂) : sumSizes l₁ = sumSizes l₂ := by
  rw [sumSizes_eq, sumSizes_eq, (h.map FileNode.Size).sum_eq]

theorem wrap64_idem (x : Int) : wrap64 (wrap64 x) = wrap64 x := by
  unfold wrap64
  omega

theorem wrap64_sumSizes (l : List FileNode) : wrap64 (sumSizes l) = sumSizes l := by
  rw [sumSizes_eq, wrap64_idem]

theorem sumSizes_append (l₁ l₂ : List FileNode) :
    sumSizes (l₁ ++ l₂) = wrap64 (sumSizes l₁ + sumSizes l₂) := by
  simp only [sumSizes_eq, List.map_append, List.sum_append]
  unfold wrap64
  omega

theorem collect_foldl (l pre : List FileNode) (s : Int) :
    l.foldl (fun acc child => (acc.1 ++ [child], add64 acc.2 child.Size)) (pre, s)
      = (pre ++ l, l.foldl (fun acc c => add64 acc c.Size) s) := by
  induction l generalizing pre s with
  | nil => simp
  | cons x xs ih => simp [ih]

theorem collect_eq (l : List FileNode) : collect l = (l, sumSizes l) := by
  simp [collect, sumSizes, collect_foldl]

/-! ## The insertion sort meets the contract of `sort.Slice` -/

theorem bubble_perm (x : FileNode) (l : List FileNode) : (bubble x l).Perm (x :: l) := by
  induction l with
  | nil => simp [bubble]
  | cons y ys ih =>
    simp only [bubble]
    split
    · exact (List.Perm.cons y ih).trans (List.Perm.swap x y ys)
    · exact List.Perm.refl _

theorem bubble_sorted (x : FileNode) (l : List FileNode)
    (h : l.Pairwise (fun a b => ¬ (a.Size > b.Size))) :
    (bubble x l).Pairwise (fun a b => ¬ (a.Size > b.Size)) := by
  induction l with
  | nil => simp [bubble]
  | cons y ys ih =>
    simp only [bubble]
    rw [List.pairwise_cons] at h
    split
    · rename_i hxy
      rw [List.pairwise_cons]
      refine ⟨?_, ih h.2⟩
      intro a ha
      rcases List.mem_cons.mp ((bubble_perm x ys).mem_iff.mp ha) with rfl | ha
      · omega
      · exact h.1 a ha
    · rename_i hxy
      rw [List.pairwise_cons]
      refine ⟨?_, List.pairwise_cons.mpr h⟩
      intro a ha
      simp at ha
      rcases ha with rfl | ha
      · exact hxy
      · have := h.1 a ha
        omega

theorem foldl_bubble_perm (l pre : List FileNode) :
    (l.foldl (fun pre x => bubble x pre) pre).Perm (l.reverse ++ pre) := by
  induction l generalizing pre with
  | nil => simp
  | cons x xs ih =>
    simp only [List.foldl_cons, List.reverse_cons, List.append_assoc, List.singleton_append]
    exact (ih _).trans (List.Perm.append_left _ (bubble_perm x pre))

theorem foldl_bubble_sorted (l pre : List FileNode)
    (h : pre.Pairwise (fun a b => ¬ (a.Size > b.Size))) :
    (l.foldl (fun pre x => bubble x pre) pre).Pairwise (fun a b => ¬ (a.Size > b.Size)) := by
  induction l generalizing pre with
  | nil => simpa using h
  | cons x xs ih => exact ih _ (bubble_sorted x pre h)

theorem insertionSort_perm (l : List FileNode) : (insertionSort l).Perm l := by
  unfold insertionSort
  refine (List.reverse_perm _).trans ?_
  have := foldl_bubble_perm l []
  simp at this
  exact this.trans (List.reverse_perm _)

theorem insertionSort_sorted (l : List FileNode) :
    (insertionSort l).Pairwise (fun a b => ¬ (b.Size > a.Size)) := by
  unfold insertionSort
  rw [List.pairwise_reverse]
  exact foldl_bubble_sorted l [] List.Pairwise.nil

theorem goEnv_lawful : goEnv.Lawful :=
  ⟨insertionSort_perm, insertionSort_sorted, fun _ l => List.Perm.refl l⟩

theorem goEnvRev_lawful : goEnvRev.Lawful :=
  ⟨insertionSort_perm, insertionSort_sorted, fun _ l => List.reverse_perm l⟩

/-! ## Induction over the filesystem -/

mutual
theorem fs_induct {P : FS → Prop} (hfile : ∀ n s, P (.file n s))
    (hdir : ∀ n es, (∀ e ∈ es, P e) → P (.dir n es))
    (hun : ∀ n, P (.unreadable n)) (hbr : ∀ n, P (.broken n)) : ∀ fs, P fs
  | .file n s => hfile n s
  | .dir n es => hdir n es (fs_induct_list hfile hdir hun hbr es)
  | .unreadable n => hun n
  | .broken n => hbr n
theorem fs_induct_list {P : FS → Prop} (hfile : ∀ n s, P (.file n s))
    (hdir : ∀ n es, (∀ e ∈ es, P e) → P (.dir n es))
    (hun : ∀ n, P (.unreadable n)) (hbr : ∀ n, P (.broken n)) :
    ∀ es : List FS, ∀ e ∈ es, P e
  | [], _, h => absurd h (List.not_mem_nil _)
  | e :: es, x, h =>
    (List.mem_cons.mp h).elim (fun hx => hx ▸ fs_induct hfile hdir hun hbr e)
      (fun hx => fs_induct_list hfile hdir hun hbr es x hx)
end

/-! ## The shape of a call's result -/

theorem buildChildren_nil (env : Env) (minSize maxDepth topN : Int) (path : String)
    (depth : Int) : buildChildren env minSize maxDepth topN [] path depth = [] := by
  simp [buildChildren]

theorem buildChildren_cons (env : Env) (minSize maxDepth topN : Int) (e : FS) (es : List FS)
    (path : String) (depth : Int) :
    buildChildren env minSize maxDepth topN (e :: es) path depth
      = (match (buildTree env minSize maxDepth topN e (env.join path e.name) (depth + 1)).2,
            (buildTree env minSize maxDepth topN e (env.join path e.name) (depth + 1)).1 with
          | none, some child => child :: buildChildren env minSize maxDepth topN es path depth
          | _, _ => buildChildren env minSize maxDepth topN es path depth) := by
  simp [buildChildren]

/-- A call returns `(nil, err)`, `(nil, nil)` or `(node, nil)`. -/
theorem buildTree_shape (env : Env) (minSize maxDepth topN : Int) (fs : FS) (path : String)
    (depth : Int) :
    (∃ e, buildTree env minSize maxDepth topN fs path depth = (none, some e))
      ∨ buildTree env minSize maxDepth topN fs path depth = (none, none)
      ∨ ∃ node, buildTree env minSize maxDepth topN fs path depth = (some node, none) := by
  cases fs with
  | file n s =>
    simp only [buildTree]
    split <;> simp
  | dir n es =>
    simp only [buildTree]
    split
    · split <;> simp
    · split <;> simp
  | unreadable n =>
    simp only [buildTree]
    split
    · split <;> simp
    · simp
  | broken n => simp [buildTree]

theorem mem_buildChildren (env : Env) (minSize maxDepth topN : Int) (path : String)
    (depth : Int) (c : FileNode) (es : List FS) :
    c ∈ buildChildren env minSize maxDepth topN es path depth ↔
      ∃ e ∈ es, buildTree env minSize maxDepth topN e (env.join path e.name) (depth + 1)
        = (some c, none) := by
  induction es with
  | nil => simp [buildChildren_nil]
  | cons e es ih =>
    rw [buildChildren_cons]
    rcases buildTree_shape env minSize maxDepth topN e (env.join path e.name) (depth + 1)
      with ⟨err, h⟩ | h | ⟨node, h⟩
    · simp [h, ih]
    · simp [h, ih]
    · simp only [h, List.mem_cons, ih, exists_eq_or_imp, Prod.mk.injEq, Option.some.injEq,
        and_true]
      constructor
      · rintro (rfl | h1)
        · exact Or.inl rfl
        · exact Or.inr h1
      · rintro (rfl | h1)
        · exact Or.inl rfl
        · exact Or.inr h1

/-- The definition of `buildTree` by cases on the entry is the text of the source: `Lstat`,
the file branch, the depth branch, `ReadDir`, the fan-out and what follows it. -/
theorem buildTree_eq_source (env : Env) (minSize maxDepth topN : Int) (fs : FS)
    (path : String) (depth : Int) :
    buildTree env minSize maxDepth topN fs path depth =
      match lstat fs with
      | .error err => (none, some err)
      | .ok info =>
        if !info.IsDir then
          if info.Size < minSize then (none, none)
          else (some (.mk info.Name path info.Size info.IsDir []), none)
        else if maxDepth ≥ 0 ∧ depth ≥ maxDepth then
          if (getSize fs).1 < minSize then (none, none)
          else (some (.mk info.Name path (getSize fs).1 info.IsDir []), none)
        else
          match readDir fs with
          | .error _ => (some (.mk info.Name path 0 info.IsDir []), none)
          | .ok entries =>
            let r := collect (env.arrival path
              (buildChildren env minSize maxDepth topN entries path depth))
            if r.2 < minSize then (none, none)
            else (some (.mk info.Name path r.2 info.IsDir
              (truncate topN (env.sortSlice r.1))), none) := by
  cases fs <;> simp [buildTree, lstat, readDir]

theorem buildTree_dir_cutoff (env : Env) (minSize maxDepth topN : Int) (n : String)
    (es : List FS) (path : String) (depth : Int) (h : maxDepth ≥ 0 ∧ depth ≥ maxDepth) :
    buildTree env minSize maxDepth topN (.dir n es) path depth
      = if (getSize (.dir n es)).1 < minSize then (none, none)
        else (some (.mk n path (getSize (.dir n es)).1 true []), none) := by
  simp only [buildTree, h, and_self, if_true]

theorem buildTree_dir_expand (env : Env) (minSize maxDepth topN : Int) (n : String)
    (es : List FS) (path : String) (depth : Int) (h : ¬ (maxDepth ≥ 0 ∧ depth ≥ maxDepth)) :
    buildTree env minSize maxDepth topN (.dir n es) path depth
      = if sumSizes (env.arrival path (buildChildren env minSize maxDepth topN es path depth))
            < minSize then (none, none)
        else (some (.mk n path
          (sumSizes (env.arrival path (buildChildren env minSize maxDepth topN es path depth)))
          true
          (truncate topN (env.sortSlice
            (env.arrival path (buildChildren env minSize maxDepth topN es path depth))))),
          none) := by
  simp only [buildTree, h, if_false, collect_eq]

/-- The five ways in which a call returns a node. -/
theorem buildTree_some (env : Env) (minSize maxDepth topN : Int) (fs : FS) (path : String)
    (depth : Int) (node : FileNode)
    (h : buildTree env minSize maxDepth topN fs path depth = (some node, none)) :
    (∃ n s, fs = .file n s ∧ ¬ s < minSize ∧ node = .mk n path s false [])
    ∨ (∃ n, fs = .unreadable n ∧ (maxDepth ≥ 0 ∧ depth ≥ maxDepth) ∧
        ¬ (getSize fs).1 < minSize ∧ node = .mk n path (getSize fs).1 true [])
    ∨ (∃ n, fs = .unreadable n ∧ ¬ (maxDepth ≥ 0 ∧ depth ≥ maxDepth) ∧
        node = .mk n path 0 true [])
    ∨ (∃ n es, fs = .dir n es ∧ (maxDepth ≥ 0 ∧ depth ≥ maxDepth) ∧
        ¬ (getSize fs).1 < minSize ∧ node = .mk n path (getSize fs).1 true [])
    ∨ (∃ n es, fs = .dir n es ∧ ¬ (maxDepth ≥ 0 ∧ depth ≥ maxDepth) ∧
        ¬ sumSizes (env.arrival path (buildChildren env minSize maxDepth topN es path depth))
            < minSize ∧
        node = .mk n path
          (sumSizes (env.arrival path (buildChildren env minSize maxDepth topN es path depth)))
          true
          (truncate topN (env.sortSlice
            (env.arrival path (buildChildren env minSize maxDepth topN es path depth))))) := by
  cases fs with
  | broken n => simp [buildTree] at h
  | file n s =>
    simp only [buildTree] at h
    split at h
    · simp at h
    · rename_i hs
      simp only [Prod.mk.injEq, Option.some.injEq, and_true] at h
      exact Or.inl ⟨n, s, rfl, hs, h.symm⟩
  | unreadable n =>
    by_cases hd : maxDepth ≥ 0 ∧ depth ≥ maxDepth
    · simp only [buildTree, hd, and_self, if_true] at h
      split at h
      · simp at h
      · rename_i hs
        simp only [Prod.mk.injEq, Option.some.injEq, and_true] at h
        exact Or.inr (Or.inl ⟨n, rfl, hd, hs, h.symm⟩)
    · simp only [buildTree, hd, if_false] at h
      simp only [Prod.mk.injEq, Option.some.injEq, and_true] at h
      exact Or.inr (Or.inr (Or.inl ⟨n, rfl, hd, h.symm⟩))
  | dir n es =>
    by_cases hd : maxDepth ≥ 0 ∧ depth ≥ maxDepth
    · rw [buildTree_dir_cutoff env minSize maxDepth topN n es path depth hd] at h
      split at h
      · simp at h
      · rename_i hs
        simp only [Prod.mk.injEq, Option.some.injEq, and_true] at h
        exact Or.inr (Or.inr (Or.inr (Or.inl ⟨n, es, rfl, hd, hs, h.symm⟩)))
    · rw [buildTree_dir_expand env minSize maxDepth topN n es path depth hd] at h
      split at h
      · simp at h
      · rename_i hs
        simp only [Prod.mk.injEq, Option.some.injEq, and_true] at h
        exact Or.inr (Or.inr (Or.inr (Or.inr ⟨n, es, rfl, hd, hs, h.symm⟩)))

theorem mem_truncate {topN : Int} {l : List FileNode} {c : FileNode}
    (h : c ∈ truncate topN l) : c ∈ l := by
  unfold truncate at h
  split at h
  · exact List.mem_of_mem_take h
  · exact h

theorem truncate_sublist (topN : Int) (l : List FileNode) : (truncate topN l).Sublist l := by
  unfold truncate
  split
  · exact List.take_sublist _ _
  · exact List.Sublist.refl _

/-- The children a returned node keeps were sent by the goroutines of its entries. -/
theorem children_of_result (env : Env) (hl : env.Lawful) (minSize maxDepth topN : Int)
    (fs : FS) (path : String) (depth : Int) (node c : FileNode)
    (h : buildTree env minSize maxDepth topN fs path depth = (some node, none))
    (hc : c ∈ node.Children) :
    ∃ n es, fs = .dir n es ∧ ¬ (maxDepth ≥ 0 ∧ depth ≥ maxDepth) ∧
      c ∈ buildChildren env minSize maxDepth topN es path depth := by
  rcases buildTree_some env minSize maxDepth topN fs path depth node h with
    ⟨n, s, _, _, rfl⟩ | ⟨n, _, _, _, rfl⟩ | ⟨n, _, _, rfl⟩ | ⟨n, es, _, _, _, rfl⟩
      | ⟨n, es, hfs, hd, _, rfl⟩
  · simp [FileNode.Children] at hc
  · simp [FileNode.Children] at hc
  · simp [FileNode.Children] at hc
  · simp [FileNode.Children] at hc
  · simp only [FileNode.Children] at hc
    refine ⟨n, es, hfs, hd, ?_⟩
    have h1 := mem_truncate hc
    have h2 := (hl.sortSlice_perm _).mem_iff.mp h1
    exact (hl.arrival_perm _ _).mem_iff.mp h2

theorem nodesFrom_eq (d : Int) (t : FileNode) :
    nodesFrom d t = (d, t) :: nodesFromList (d + 1) t.Children := by
  cases t with
  | mk n p s b cs => simp [nodesFrom, FileNode.Children]

theorem mem_nodesFromList (d : Int) (p : Int × FileNode) (cs : List FileNode) :
    p ∈ nodesFromList d cs ↔ ∃ c ∈ cs, p ∈ nodesFrom d c := by
  induction cs with
  | nil => simp [nodesFromList]
  | cons c cs ih => simp [nodesFromList, ih]

/-- What holds of the node of every call holds of every node of a returned tree, at the
depth of the call that made it. -/
theorem forall_nodes (env : Env) (hl : env.Lawful) (minSize maxDepth topN : Int)
    (Q : Int → FileNode → Prop)
    (hQ : ∀ fs path depth node,
      buildTree env minSize maxDepth topN fs path depth = (some node, none) → Q depth node)
    (fs : FS) : ∀ (path : String) (depth : Int),
      ∀ p ∈ resultNodes depth (buildTree env minSize maxDepth topN fs path depth),
        Q p.1 p.2 := by
  induction fs using fs_induct with
  | hbr n => intro path depth p hp; simp [buildTree, resultNodes] at hp
  | hfile n s =>
    intro path depth p hp
    rcases buildTree_shape env minSize maxDepth topN (.file n s) path depth
      with ⟨err, h⟩ | h | ⟨node, h⟩
    · simp [h, resultNodes] at hp
    · simp [h, resultNodes] at hp
    · simp only [h, resultNodes] at hp
      rw [nodesFrom_eq, List.mem_cons, mem_nodesFromList] at hp
      rcases hp with rfl | ⟨c, hc, _⟩
      · exact hQ _ _ _ _ h
      · obtain ⟨n', es', hfs, _⟩ :=
          children_of_result env hl minSize maxDepth topN _ path depth node c h hc
        cases hfs
  | hun n =>
    intro path depth p hp
    rcases buildTree_shape env minSize maxDepth topN (.unreadable n) path depth
      with ⟨err, h⟩ | h | ⟨node, h⟩
    · simp [h, resultNodes] at hp
    · simp [h, resultNodes] at hp
    · simp only [h, resultNodes] at hp
      rw [nodesFrom_eq, List.mem_cons, mem_nodesFromList] at hp
      rcases hp with rfl | ⟨c, hc, _⟩
      · exact hQ _ _ _ _ h
      · obtain ⟨n', es', hfs, _⟩ :=
          children_of_result env hl minSize maxDepth topN _ path depth node c h hc
        cases hfs
  | hdir n es ih =>
    intro path depth p hp
    rcases buildTree_shape env minSize maxDepth topN (.dir n es) path depth
      with ⟨err, h⟩ | h | ⟨node, h⟩
    · simp [h, resultNodes] at hp
    · simp [h, resultNodes] at hp
    · simp only [h, resultNodes] at hp
      rw [nodesFrom_eq, List.mem_cons, mem_nodesFromList] at hp
      rcases hp with rfl | ⟨c, hc, hpc⟩
      · exact hQ _ _ _ _ h
      · obtain ⟨n', es', hfs, _, hmem⟩ :=
          children_of_result env hl minSize maxDepth topN _ path depth node c h hc
        cases hfs
        obtain ⟨e, he, hbe⟩ :=
          (mem_buildChildren env minSize maxDepth topN path depth c es).mp hmem
        apply ih e he (env.join path e.name) (depth + 1) p
        simpa only [hbe, resultNodes] using hpc

theorem truncate_eq_self {topN : Int} {l : List FileNode}
    (h : topN ≤ 0 ∨ (l.length : Int) ≤ topN) : truncate topN l = l := by
  unfold truncate
  rw [if_neg]
  omega

/-- Every node of a returned tree is the node that some call of `buildTree`, at the depth of
the node, returned: what is proved of the node of each call holds throughout the tree. -/
theorem node_of_call (env : Env) (hl : env.Lawful) (minSize maxDepth topN : Int) (fs : FS)
    (path : String) (depth : Int) :
    ∀ p ∈ resultNodes depth (buildTree env minSize maxDepth topN fs path depth),
      ∃ (fs' : FS) (path' : String),
        buildTree env minSize maxDepth topN fs' path' p.1 = (some p.2, none) :=
  forall_nodes env hl minSize maxDepth topN
    (fun d node => ∃ (fs' : FS) (path' : String),
      buildTree env minSize maxDepth topN fs' path' d = (some node, none))
    (fun fs' path' _ _ h => ⟨fs', path', h⟩) fs path depth

/-! ## Claims about the returned tree -/

/-- C5: in every node of a tree returned by `buildTree` the children are ordered by `Size`,
largest first: for all indices `i < j`, `Children[i].Size >= Children[j].Size`. -/
theorem children_sorted (env : Env) (hl : env.Lawful) (minSize maxDepth topN : Int)
    (fs : FS) (path : String) (depth : Int) :
    ∀ p ∈ resultNodes depth (buildTree env minSize maxDepth topN fs path depth),
      ∀ (i j : Nat) (_ : i < j) (hj : j < p.2.Children.length),
        p.2.Children[j].Size ≤ p.2.Children[i].Size := by
  refine forall_nodes env hl minSize maxDepth topN
    (fun _ node => ∀ (i j : Nat) (_ : i < j) (hj : j < node.Children.length),
        node.Children[j].Size ≤ node.Children[i].Size) ?_ fs path depth
  intro fs path depth node h i j hij hj
  have hs : node.Children.Pairwise (fun a b => ¬ (b.Size > a.Size)) := by
    rcases buildTree_some env minSize maxDepth topN fs path depth node h with
      ⟨n, s, _, _, rfl⟩ | ⟨n, _, _, _, rfl⟩ | ⟨n, _, _, rfl⟩ | ⟨n, es, _, _, _, rfl⟩
        | ⟨n, es, _, _, _, rfl⟩
    · exact List.Pairwise.nil
    · exact List.Pairwise.nil
    · exact List.Pairwise.nil
    · exact List.Pairwise.nil
    · exact (hl.sortSlice_sorted _).sublist (truncate_sublist _ _)
  have := List.pairwise_iff_getElem.mp hs i j (by omega) hj hij
  omega

/-- C5, at the scenario with `topN = 2`: the children of the root are in order. -/
theorem children_sorted_witness :
    goEnv.Lawful ∧
    ((0 : Int), FileNode.mk "root" "root" 160 true
        [.mk "a" "root/a" 100 false [], .mk "b" "root/b" 50 false []])
      ∈ resultNodes 0 (buildTree goEnv 0 (-1) 2 scenario "root" 0) ∧
    (50 : Int) ≤ 100 :=
  ⟨goEnv_lawful, List.Mem.head _,
    children_sorted goEnv goEnv_lawful 0 (-1) 2 scenario "root" 0
      ((0 : Int), FileNode.mk "root" "root" 160 true
        [.mk "a" "root/a" 100 false [], .mk "b" "root/b" 50 false []])
      (List.Mem.head _) 0 1 (by decide) (by decide)⟩

/-- C1, as the code has it. A directory node returned by a call that expands it (no depth
limit, or its depth below `maxDepth`) has as `Size` the `int64` sum of the `Size` of its
`Children` together with the children that the `topN` truncation dropped; nothing is dropped
when `topN <= 0` or at most `topN` children were sent, and then `Size` is the sum over
`Children`. A directory node returned at the depth cut-off has no children and the `Size`
that `getSize` gives. -/
theorem size_eq_sum_of_children_uncut (env : Env) (hl : env.Lawful)
    (minSize maxDepth topN : Int) (fs : FS) (path : String) (depth : Int) (node : FileNode)
    (h : buildTree env minSize maxDepth topN fs path depth = (some node, none))
    (hdir : node.IsDir = true) :
    ((maxDepth < 0 ∨ depth < maxDepth) →
      (∃ dropped,
        (node.Children ++ dropped).Perm (sent env minSize maxDepth topN fs path depth) ∧
        node.Size = sumSizes (node.Children ++ dropped) ∧
        ((topN ≤ 0 ∨ ((sent env minSize maxDepth topN fs path depth).length : Int) ≤ topN) →
          dropped = []) ∧
        (sumSizes dropped = 0 → node.Size = sumSizes node.Children))
      ∧ ((topN ≤ 0 ∨ ((sent env minSize maxDepth topN fs path depth).length : Int) ≤ topN) →
          node.Size = sumSizes node.Children))
    ∧ ((maxDepth ≥ 0 ∧ depth ≥ maxDepth) →
        node.Children = [] ∧ node.Size = (getSize fs).1 ∧
        ((getSize fs).1 = 0 → node.Size = sumSizes node.Children)) := by
  rcases buildTree_some env minSize maxDepth topN fs path depth node h with
    ⟨n, s, _, _, rfl⟩ | ⟨n, hs, hd, _, rfl⟩ | ⟨n, hs, hd, rfl⟩ | ⟨n, es, hs, hd, _, rfl⟩
      | ⟨n, es, hs, hd, _, rfl⟩
  · simp [FileNode.IsDir] at hdir
  · exact ⟨fun hdepth => absurd hd (by omega), fun _ => ⟨rfl, rfl, fun h0 => by
      simp only [FileNode.Size, FileNode.Children, h0]; rfl⟩⟩
  · subst hs
    refine ⟨fun _ => ⟨⟨[], ?_, ?_, fun _ => rfl, fun _ => ?_⟩, fun _ => ?_⟩,
      fun hcut => absurd hcut hd⟩
    · simp [FileNode.Children, sent]
    · simp [FileNode.Children, FileNode.Size, sumSizes]
    · simp [FileNode.Children, FileNode.Size, sumSizes]
    · simp [FileNode.Children, FileNode.Size, sumSizes]
  · exact ⟨fun hdepth => absurd hd (by omega), fun _ => ⟨rfl, rfl, fun h0 => by
      simp only [FileNode.Size, FileNode.Children, h0]; rfl⟩⟩
  · subst hs
    refine ⟨fun _ => ?_, fun hcut => absurd hcut hd⟩
    simp only [FileNode.Children, FileNode.Size, sent]
    have hperm : (env.sortSlice (env.arrival path
        (buildChildren env minSize maxDepth topN es path depth))).Perm
        (buildChildren env minSize maxDepth topN es path depth) :=
      (hl.sortSlice_perm _).trans (hl.arrival_perm _ _)
    have hsum : sumSizes (env.arrival path
        (buildChildren env minSize maxDepth topN es path depth))
        = sumSizes (env.sortSlice (env.arrival path
        (buildChildren env minSize maxDepth topN es path depth))) :=
      sumSizes_perm (hl.sortSlice_perm _).symm
    rw [hsum]
    generalize env.sortSlice (env.arrival path
      (buildChildren env minSize maxDepth topN es path depth)) = sorted at hperm
    have hlen := hperm.length_eq
    constructor
    · by_cases hc : topN > 0 ∧ (sorted.length : Int) > topN
      · have ht : truncate topN sorted = sorted.take topN.toNat := by
          unfold truncate
          rw [if_pos hc]
        refine ⟨sorted.drop topN.toNat, ?_, ?_, fun hall => absurd hall (by omega), ?_⟩
        · rw [ht, List.take_append_drop]
          exact hperm
        · rw [ht, List.take_append_drop]
        · intro hz
          have hsplit := sumSizes_append (sorted.take topN.toNat) (sorted.drop topN.toNat)
          rw [List.take_append_drop, hz, add_zero] at hsplit
          rw [ht, hsplit, wrap64_sumSizes]
      · have ht : truncate topN sorted = sorted := truncate_eq_self (by omega)
        refine ⟨[], ?_, ?_, fun _ => rfl, fun _ => by rw [ht]⟩
        · rw [ht, List.append_nil]
          exact hperm
        · rw [ht, List.append_nil]
    · intro hall
      rw [truncate_eq_self (by omega)]

/-- C1 at the scenario with `topN = 3`, as many as the root has children: nothing is cut and
the root holds 160 bytes, the sum over its three children. -/
theorem size_eq_sum_of_children_uncut_witness :
    goEnv.Lawful ∧
    buildTree goEnv 0 (-1) 3 scenario "root" 0
      = (some (.mk "root" "root" 160 true
          [.mk "a" "root/a" 100 false [], .mk "b" "root/b" 50 false [],
           .mk "sub" "root/sub" 10 true [.mk "c" "root/sub/c" 10 false []]]), none) ∧
    ((sent goEnv 0 (-1) 3 scenario "root" 0).length : Int) ≤ 3 ∧
    (160 : Int) = sumSizes [.mk "a" "root/a" 100 false [], .mk "b" "root/b" 50 false [],
         .mk "sub" "root/sub" 10 true [.mk "c" "root/sub/c" 10 false []]] :=
  ⟨goEnv_lawful, rfl, by decide,
    ((size_eq_sum_of_children_uncut goEnv goEnv_lawful 0 (-1) 3 scenario "root" 0
      (.mk "root" "root" 160 true
        [.mk "a" "root/a" 100 false [], .mk "b" "root/b" 50 false [],
         .mk "sub" "root/sub" 10 true [.mk "c" "root/sub/c" 10 false []]])
      (by rfl) rfl).1 (Or.inl (by decide))).2 (Or.inr (by decide))⟩

/-- C1 fails as stated: with `topN = 2` the root of the scenario keeps `a` and `b`, 150 bytes
together, while its `Size` is 160; and cut off at depth 0 it has no children and `Size` 160. -/
theorem size_ne_sum_of_retained_children :
    (∃ p ∈ resultNodes 0 (buildTree goEnv 0 (-1) 2 scenario "root" 0),
      p.2.IsDir = true ∧ p.2.Size = 160 ∧ sumSizes p.2.Children = 150) ∧
    (∃ p ∈ resultNodes 0 (buildTree goEnv 0 0 0 scenario "root" 0),
      p.2.IsDir = true ∧ p.2.Size = 160 ∧ sumSizes p.2.Children = 0) :=
  ⟨⟨((0 : Int), FileNode.mk "root" "root" 160 true
        [.mk "a" "root/a" 100 false [], .mk "b" "root/b" 50 false []]),
      List.Mem.head _, rfl, rfl, by decide⟩,
   ⟨((0 : Int), FileNode.mk "root" "root" 160 true []), List.Mem.head _, rfl, rfl, by decide⟩⟩

/-- C4: a directory that `buildTree` expands and returns, with `cs` the children its
goroutines sent. If `topN > 0` and `cs` has more than `topN` elements, exactly `topN` are kept
and each kept child is at least as large as each dropped one; if `topN <= 0` or `cs` has at
most `topN` elements, all of `cs` is kept. -/
theorem topN_keeps_largest (env : Env) (hl : env.Lawful) (minSize maxDepth topN : Int)
    (n : String) (es : List FS) (path : String) (depth : Int) (node : FileNode)
    (hd : ¬ (maxDepth ≥ 0 ∧ depth ≥ maxDepth))
    (h : buildTree env minSize maxDepth topN (.dir n es) path depth = (some node, none)) :
    (topN > 0 →
      ((buildChildren env minSize maxDepth topN es path depth).length : Int) > topN →
        (node.Children.length : Int) = topN ∧
        ∃ dropped, (node.Children ++ dropped).Perm
            (buildChildren env minSize maxDepth topN es path depth) ∧
          ∀ r ∈ node.Children, ∀ d ∈ dropped, r.Size ≥ d.Size)
    ∧ ((topN ≤ 0 ∨
        ((buildChildren env minSize maxDepth topN es path depth).length : Int) ≤ topN) →
        node.Children.Perm (buildChildren env minSize maxDepth topN es path depth)) := by
  rw [buildTree_dir_expand env minSize maxDepth topN n es path depth hd] at h
  split at h
  · simp at h
  simp only [Prod.mk.injEq, Option.some.injEq, and_true] at h
  subst h
  simp only [FileNode.Children]
  have hperm : (env.sortSlice (env.arrival path
      (buildChildren env minSize maxDepth topN es path depth))).Perm
      (buildChildren env minSize maxDepth topN es path depth) :=
    (hl.sortSlice_perm _).trans (hl.arrival_perm _ _)
  have hsorted := hl.sortSlice_sorted (env.arrival path
      (buildChildren env minSize maxDepth topN es path depth))
  generalize env.sortSlice (env.arrival path
      (buildChildren env minSize maxDepth topN es path depth)) = sorted at hperm hsorted
  have hlen := hperm.length_eq
  constructor
  · intro htop hmore
    have ht : truncate topN sorted = sorted.take topN.toNat := by
      unfold truncate
      rw [if_pos]
      omega
    rw [ht]
    refine ⟨?_, sorted.drop topN.toNat, ?_, ?_⟩
    · rw [List.length_take]
      omega
    · rw [List.take_append_drop]
      exact hperm
    · intro r hr d hdm
      have hsplit := List.take_append_drop topN.toNat sorted
      rw [← hsplit] at hsorted
      have := (List.pairwise_append.mp hsorted).2.2 r hr d hdm
      omega
  · intro hall
    rw [truncate_eq_self (by omega)]
    exact hperm

/-- C4 at the scenario with `topN = 2`: three children were sent, `a` and `b` are kept. -/
theorem topN_keeps_largest_witness :
    (buildTree goEnv 0 (-1) 2 scenario "root" 0).1.map
        (fun t => t.Children.map FileNode.Name) = some ["a", "b"] ∧
    ((2 : Int) = 2 ∧
      ∃ dropped, ([FileNode.mk "a" "root/a" 100 false [], .mk "b" "root/b" 50 false []]
          ++ dropped).Perm
          (buildChildren goEnv 0 (-1) 2
            [.file "a" 100, .file "b" 50, .dir "sub" [.file "c" 10]] "root" 0) ∧
        ∀ r ∈ [FileNode.mk "a" "root/a" 100 false [], .mk "b" "root/b" 50 false []],
          ∀ d ∈ dropped, r.Size ≥ d.Size) :=
  ⟨rfl, (topN_keeps_largest goEnv goEnv_lawful 0 (-1) 2 "root"
      [.file "a" 100, .file "b" 50, .dir "sub" [.file "c" 10]] "root" 0
      (.mk "root" "root" 160 true [.mk "a" "root/a" 100 false [], .mk "b" "root/b" 50 false []])
      (by decide) (by rfl)).1 (by decide) (by decide)⟩

/-- C8: `buildTree` returns an error exactly when `Lstat` of its own path fails, and then
the node is `nil`; whatever fails below the path, in a listing or inside `getSize`, the
error stays `nil`. -/
theorem error_iff_lstat_fails (env : Env) (minSize maxDepth topN : Int) (fs : FS)
    (path : String) (depth : Int) :
    ((buildTree env minSize maxDepth topN fs path depth).2 ≠ none ↔
        ∃ e, lstat fs = .error e)
    ∧ ((buildTree env minSize maxDepth topN fs path depth).2 ≠ none →
        (buildTree env minSize maxDepth topN fs path depth).1 = none) := by
  cases fs with
  | broken n => simp [buildTree, lstat]
  | file n s =>
    simp only [buildTree, lstat]
    split <;> simp
  | unreadable n =>
    simp only [buildTree, lstat]
    split
    · split <;> simp
    · simp
  | dir n es =>
    simp only [buildTree, lstat]
    split
    · split <;> simp
    · split <;> simp

/-- Where the minimum applies: every node of a returned tree has `Size >= minSize`, unless it
is a directory whose listing failed, returned with `Size` 0 and no children. -/
theorem size_ge_minSize_or_unlisted (env : Env) (hl : env.Lawful)
    (minSize maxDepth topN : Int) (fs : FS) (path : String) (depth : Int) :
    ∀ p ∈ resultNodes depth (buildTree env minSize maxDepth topN fs path depth),
      p.2.Size ≥ minSize ∨ (p.2.IsDir = true ∧ p.2.Size = 0 ∧ p.2.Children = []) := by
  refine forall_nodes env hl minSize maxDepth topN
    (fun _ node => node.Size ≥ minSize ∨
      (node.IsDir = true ∧ node.Size = 0 ∧ node.Children = [])) ?_ fs path depth
  intro fs path depth node h
  rcases buildTree_some env minSize maxDepth topN fs path depth node h with
    ⟨n, s, _, hs, rfl⟩ | ⟨n, _, hd, hs, rfl⟩ | ⟨n, _, _, rfl⟩ | ⟨n, es, _, hd, hs, rfl⟩
      | ⟨n, es, _, hd, hs, rfl⟩
  · exact Or.inl (by simp only [FileNode.Size]; omega)
  · exact Or.inl (by simp only [FileNode.Size]; omega)
  · exact Or.inr ⟨rfl, rfl, rfl⟩
  · exact Or.inl (by simp only [FileNode.Size]; omega)
  · exact Or.inl (by simp only [FileNode.Size]; omega)

/-- C2 fails on the code: a directory whose listing fails is returned with `Size` 0 whatever
`minSize` is, at the root and as a child. With `minSize = 50` the unlistable `u` is returned
alone, and is kept next to the 100-byte file `a` under `root`. -/
theorem unreadable_dir_below_minSize :
    buildTree goEnv 50 (-1) 0 (.unreadable "u") "u" 0
      = (some (.mk "u" "u" 0 true []), none) ∧
    buildTree goEnv 50 (-1) 0 (.dir "root" [.file "a" 100, .unreadable "u"]) "root" 0
      = (some (.mk "root" "root" 100 true
          [.mk "a" "root/a" 100 false [], .mk "u" "root/u" 0 true []]), none) ∧
    (0 : Int) < 50 :=
  ⟨rfl, rfl, by decide⟩

/-! ## Sizes do not depend on `topN`, on the sort or on the arrival order -/

theorem sumSizes_of_map_eq {l₁ l₂ : List FileNode}
    (h : l₁.map FileNode.Size = l₂.map FileNode.Size) : sumSizes l₁ = sumSizes l₂ := by
  rw [sumSizes_eq, sumSizes_eq, h]

theorem buildChildren_sizes (env₁ env₂ : Env) (minSize maxDepth topN₁ topN₂ : Int)
    (path₁ path₂ : String) (depth : Int) (es : List FS)
    (ih : ∀ e ∈ es, ∀ (p₁ p₂ : String) (d : Int),
      ((buildTree env₁ minSize maxDepth topN₁ e p₁ d).1.map FileNode.Size,
        (buildTree env₁ minSize maxDepth topN₁ e p₁ d).2)
      = ((buildTree env₂ minSize maxDepth topN₂ e p₂ d).1.map FileNode.Size,
        (buildTree env₂ minSize maxDepth topN₂ e p₂ d).2)) :
    (buildChildren env₁ minSize maxDepth topN₁ es path₁ depth).map FileNode.Size
      = (buildChildren env₂ minSize maxDepth topN₂ es path₂ depth).map FileNode.Size := by
  induction es with
  | nil => simp [buildChildren_nil]
  | cons e es ihl =>
    have hrest := ihl (fun x hx => ih x (List.mem_cons_of_mem _ hx))
    have he := ih e (List.mem_cons_self _ _) (env₁.join path₁ e.name) (env₂.join path₂ e.name)
      (depth + 1)
    rw [buildChildren_cons, buildChildren_cons]
    rcases buildTree_shape env₁ minSize maxDepth topN₁ e (env₁.join path₁ e.name) (depth + 1)
      with ⟨err, h1⟩ | h1 | ⟨c1, h1⟩ <;>
    rcases buildTree_shape env₂ minSize maxDepth topN₂ e (env₂.join path₂ e.name) (depth + 1)
      with ⟨err2, h2⟩ | h2 | ⟨c2, h2⟩ <;>
    simp only [h1, h2, Option.map_none', Option.map_some', Prod.mk.injEq, Option.some.injEq,
      and_true, true_and, reduceCtorEq, and_false, false_and] at he <;>
    simp [h1, h2, hrest, he]

/-- The size a call reports, the elision of its node and its error are the same under any
two lawful environments, any two values of `topN` and any two paths. -/
theorem size_indep (env₁ env₂ : Env) (hl₁ : env₁.Lawful) (hl₂ : env₂.Lawful)
    (minSize maxDepth topN₁ topN₂ : Int) (fs : FS) :
    ∀ (path₁ path₂ : String) (depth : Int),
      ((buildTree env₁ minSize maxDepth topN₁ fs path₁ depth).1.map FileNode.Size,
        (buildTree env₁ minSize maxDepth topN₁ fs path₁ depth).2)
      = ((buildTree env₂ minSize maxDepth topN₂ fs path₂ depth).1.map FileNode.Size,
        (buildTree env₂ minSize maxDepth topN₂ fs path₂ depth).2) := by
  induction fs using fs_induct with
  | hbr n => intro p₁ p₂ d; simp [buildTree]
  | hfile n s =>
    intro p₁ p₂ d
    simp only [buildTree]
    split <;> simp [FileNode.Size]
  | hun n =>
    intro p₁ p₂ d
    simp only [buildTree]
    split
    · split <;> simp [FileNode.Size]
    · simp [FileNode.Size]
  | hdir n es ih =>
    intro p₁ p₂ d
    by_cases hd : maxDepth ≥ 0 ∧ d ≥ maxDepth
    · rw [buildTree_dir_cutoff env₁ minSize maxDepth topN₁ n es p₁ d hd,
        buildTree_dir_cutoff env₂ minSize maxDepth topN₂ n es p₂ d hd]
      split <;> simp [FileNode.Size]
    · rw [buildTree_dir_expand env₁ minSize maxDepth topN₁ n es p₁ d hd,
        buildTree_dir_expand env₂ minSize maxDepth topN₂ n es p₂ d hd]
      have hs : sumSizes (env₁.arrival p₁ (buildChildren env₁ minSize maxDepth topN₁ es p₁ d))
          = sumSizes (env₂.arrival p₂ (buildChildren env₂ minSize maxDepth topN₂ es p₂ d)) := by
        rw [sumSizes_perm (hl₁.arrival_perm _ _), sumSizes_perm (hl₂.arrival_perm _ _)]
        exact sumSizes_of_map_eq
          (buildChildren_sizes env₁ env₂ minSize maxDepth topN₁ topN₂ p₁ p₂ d es ih)
      rw [hs]
      split <;> simp [FileNode.Size]

theorem sorted_sizes (env : Env) (hl : env.Lawful) (p : String) (l : List FileNode)
    (target : List Int) (h : l.map FileNode.Size = target)
    (hs : target.Pairwise (fun a b => a ≥ b)) :
    (env.sortSlice (env.arrival p l)).map FileNode.Size = target := by
  have hperm : ((env.sortSlice (env.arrival p l)).map FileNode.Size).Perm target := by
    rw [← h]
    exact ((hl.sortSlice_perm _).trans (hl.arrival_perm _ _)).map _
  have hsorted : ((env.sortSlice (env.arrival p l)).map FileNode.Size).Pairwise
      (fun a b => a ≥ b) := by
    rw [List.pairwise_map]
    exact (hl.sortSlice_sorted _).imp (fun hab => by omega)
  exact List.eq_of_perm_of_sorted hperm hsorted hs

theorem scenario_children_sizes (env : Env) (hl : env.Lawful) (topN : Int) (path : String) :
    (buildChildren env 0 (-1) topN [.file "a" 100, .file "b" 50, .dir "sub" [.file "c" 10]]
      path 0).map FileNode.Size = [100, 50, 10] := by
  rw [buildChildren_sizes env goEnv 0 (-1) topN 0 path "root" 0 _
    (fun e _ p₁ p₂ d => size_indep env goEnv hl goEnv_lawful 0 (-1) topN 0 e p₁ p₂ d)]
  rfl

theorem scenario_result (env : Env) (hl : env.Lawful) (topN : Int) (path : String) :
    (buildTree env 0 (-1) topN scenario path 0).1.map
        (fun t => (t.Size, t.Children.map FileNode.Size))
      = some (160, (truncate topN (env.sortSlice (env.arrival path
          (buildChildren env 0 (-1) topN
            [.file "a" 100, .file "b" 50, .dir "sub" [.file "c" 10]] path 0)))).map
          FileNode.Size) := by
  have hsum : sumSizes (env.arrival path (buildChildren env 0 (-1) topN
      [.file "a" 100, .file "b" 50, .dir "sub" [.file "c" 10]] path 0)) = 160 := by
    rw [sumSizes_perm (hl.arrival_perm _ _), sumSizes_eq, scenario_children_sizes env hl]
    decide
  unfold scenario
  rw [buildTree_dir_expand env 0 (-1) topN _ _ path 0 (by decide), hsum]
  simp [FileNode.Size, FileNode.Children]

/-- C3: a directory within the depth bound whose listing succeeds gets as `Size` the `int64`
sum over every child its goroutines sent, before sorting and truncation, and is elided exactly
when that sum is below `minSize`; so the `Size` of any call, the elision of its node and its
error are the same for every `topN`. In the scenario the root has `Size` 160 and child sizes
`[100, 50, 10]` with `topN = 0`, and `Size` 160 and child sizes `[100, 50]` with `topN = 2`. -/
theorem size_is_sum_before_truncation (env : Env) (hl : env.Lawful)
    (minSize maxDepth topN : Int) (n : String) (es : List FS) (path : String) (depth : Int)
    (hd : ¬ (maxDepth ≥ 0 ∧ depth ≥ maxDepth)) :
    (((buildTree env minSize maxDepth topN (.dir n es) path depth).1.map FileNode.Size,
        (buildTree env minSize maxDepth topN (.dir n es) path depth).2)
      = (if sumSizes (buildChildren env minSize maxDepth topN es path depth) < minSize
          then none
          else some (sumSizes (buildChildren env minSize maxDepth topN es path depth)), none))
    ∧ (∀ (fs : FS) (p : String) (d : Int) (topN' : Int),
        ((buildTree env minSize maxDepth topN' fs p d).1.map FileNode.Size,
          (buildTree env minSize maxDepth topN' fs p d).2)
        = ((buildTree env minSize maxDepth topN fs p d).1.map FileNode.Size,
          (buildTree env minSize maxDepth topN fs p d).2))
    ∧ (buildTree env 0 (-1) 0 scenario path 0).1.map
        (fun t => (t.Size, t.Children.map FileNode.Size)) = some (160, [100, 50, 10])
    ∧ (buildTree env 0 (-1) 2 scenario path 0).1.map
        (fun t => (t.Size, t.Children.map FileNode.Size)) = some (160, [100, 50]) := by
  refine ⟨?_, ?_, ?_, ?_⟩
  · rw [buildTree_dir_expand env minSize maxDepth topN n es path depth hd,
      sumSizes_perm (hl.arrival_perm _ _)]
    split <;> simp [FileNode.Size]
  · intro fs p d topN'
    exact size_indep env env hl hl minSize maxDepth topN' topN fs p p d
  · rw [scenario_result env hl 0 path, truncate_eq_self (Or.inl (le_refl 0)),
      sorted_sizes env hl path _ [100, 50, 10] (scenario_children_sizes env hl 0 path)
        (by decide)]
  · rw [scenario_result env hl 2 path]
    have hlen := ((hl.sortSlice_perm _).trans (hl.arrival_perm path
      (buildChildren env 0 (-1) 2
        [.file "a" 100, .file "b" 50, .dir "sub" [.file "c" 10]] path 0))).length_eq
    have hl3 := congrArg List.length (scenario_children_sizes env hl 2 path)
    simp only [List.length_map, List.length_cons, List.length_nil] at hl3
    have ht : truncate 2 (env.sortSlice (env.arrival path (buildChildren env 0 (-1) 2
        [.file "a" 100, .file "b" 50, .dir "sub" [.file "c" 10]] path 0)))
        = (env.sortSlice (env.arrival path (buildChildren env 0 (-1) 2
        [.file "a" 100, .file "b" 50, .dir "sub" [.file "c" 10]] path 0))).take 2 := by
      unfold truncate
      rw [if_pos]
      · rfl
      · omega
    rw [ht, List.map_take,
      sorted_sizes env hl path _ [100, 50, 10] (scenario_children_sizes env hl 2 path)
        (by decide)]
    rfl

/-- C3 at the scenario, children arriving in reverse order: 160 bytes whatever `topN` is. -/
theorem size_is_sum_before_truncation_witness :
    goEnvRev.Lawful ∧ ¬ ((-1 : Int) ≥ 0 ∧ (0 : Int) ≥ -1) ∧
    (buildTree goEnvRev 0 (-1) 0 scenario "root" 0).1.map
        (fun t => (t.Size, t.Children.map FileNode.Size)) = some (160, [100, 50, 10]) ∧
    (buildTree goEnvRev 0 (-1) 2 scenario "root" 0).1.map
        (fun t => (t.Size, t.Children.map FileNode.Size)) = some (160, [100, 50]) :=
  ⟨goEnvRev_lawful, by decide,
    (size_is_sum_before_truncation goEnvRev goEnvRev_lawful 0 (-1) 2 "root"
      [.file "a" 100, .file "b" 50, .dir "sub" [.file "c" 10]] "root" 0 (by decide)).2.2⟩

/-! ## `getSize` is the byte total of the subtree -/

theorem walkNames_getSizeFn (es : List FS)
    (ih : ∀ e ∈ es, ∀ (info : FileInfo) (total : Int), lstat e = .ok info →
      walk getSizeFn info e (wrap64 total) = (wrap64 (total + e.bytes), none)) :
    ∀ total : Int,
      walkNames getSizeFn es (wrap64 total) = (wrap64 (total + bytesList es), none) := by
  induction es with
  | nil => intro total; simp [walkNames, bytesList]
  | cons e es ihl =>
    intro total
    have hrest := ihl (fun x hx => ih x (List.mem_cons_of_mem _ hx))
    cases hls : lstat e with
    | error err =>
      have hb : e.bytes = 0 := by
        cases e <;> simp [lstat] at hls
        simp [FS.bytes]
      simp only [walkNames, hls, getSizeFn, bytesList, hb, zero_add]
      exact hrest total
    | ok info =>
      have hw := ih e (List.mem_cons_self _ _) info total hls
      simp only [walkNames, hls, hw, bytesList]
      rw [hrest (total + e.bytes), add_assoc]

theorem walk_getSizeFn (fs : FS) : ∀ (info : FileInfo) (total : Int), lstat fs = .ok info →
    walk getSizeFn info fs (wrap64 total) = (wrap64 (total + fs.bytes), none) := by
  induction fs using fs_induct with
  | hbr n => intro info total h; simp [lstat] at h
  | hfile n s =>
    intro info total h
    simp only [lstat, Except.ok.injEq] at h
    subst h
    simp [walk, getSizeFn, FS.bytes, add64, wrap64_add_left]
  | hun n =>
    intro info total h
    simp [walk, getSizeFn, FS.bytes]
  | hdir n es ih =>
    intro info total h
    simp only [lstat, Except.ok.injEq] at h
    subst h
    simp only [walk, getSizeFn, Bool.not_true, Bool.false_eq_true, if_false, FS.bytes]
    exact walkNames_getSizeFn es ih total

/-- The function `getSize` returns the byte total of the subtree, in `int64` arithmetic, and
never an error. -/
theorem getSize_eq (fs : FS) : getSize fs = (wrap64 fs.bytes, none) := by
  have h0 : wrap64 0 = 0 := by decide
  cases hls : lstat fs with
  | error err =>
    have hb : fs.bytes = 0 := by
      cases fs <;> simp [lstat] at hls
      simp [FS.bytes]
    simp [getSize, filepathWalk, hls, getSizeFn, hb, h0]
  | ok info =>
    have hw := walk_getSizeFn fs info 0 hls
    rw [h0, zero_add] at hw
    simp [getSize, filepathWalk, hls, hw]

/-! ## Calls that return -/

theorem stopsList_pos (numThreads maxDepth : Int) (es : List FS)
    (ih : ∀ e ∈ es, ∀ depth, stops numThreads maxDepth e depth = none) :
    ∀ depth, stopsList numThreads maxDepth es depth = none := by
  induction es with
  | nil => intro depth; simp [stopsList]
  | cons e es ihl =>
    intro depth
    simp only [stopsList, ih e (List.mem_cons_self _ _) depth]
    exact ihl (fun x hx => ih x (List.mem_cons_of_mem _ hx)) depth

/-- With `numThreads >= 1` every call returns. -/
theorem stops_pos (numThreads maxDepth : Int) (h : 1 ≤ numThreads) (fs : FS) :
    ∀ depth, stops numThreads maxDepth fs depth = none := by
  induction fs using fs_induct with
  | hbr n => intro depth; simp [stops]
  | hfile n s => intro depth; simp [stops]
  | hun n => intro depth; simp [stops]
  | hdir n es ih =>
    intro depth
    simp only [stops]
    split
    · rfl
    · rw [if_neg (by omega), if_neg (by omega)]
      exact stopsList_pos numThreads maxDepth es ih (depth + 1)

theorem buildTreeRun_pos (env : Env) (numThreads minSize maxDepth topN : Int)
    (h : 1 ≤ numThreads) (fs : FS) (path : String) (depth : Int) :
    buildTreeRun env numThreads minSize maxDepth topN fs path depth
      = .ok (buildTree env minSize maxDepth topN fs path depth) := by
  simp only [buildTreeRun, stops_pos numThreads maxDepth h fs depth]

theorem buildTreeRun_of_returns (env : Env) (numThreads minSize maxDepth topN : Int)
    (fs : FS) (path : String) (depth : Int)
    (h : 1 ≤ numThreads ∨ stops numThreads maxDepth fs depth = none) :
    buildTreeRun env numThreads minSize maxDepth topN fs path depth
      = .ok (buildTree env minSize maxDepth topN fs path depth) := by
  rcases h with h | h
  · exact buildTreeRun_pos env numThreads minSize maxDepth topN h fs path depth
  · simp only [buildTreeRun, h]

/-- What a call returns, when it returns, is the value of `buildTree`. -/
theorem buildTreeRun_ok (env : Env) (numThreads minSize maxDepth topN : Int) (fs : FS)
    (path : String) (depth : Int) (r : Option FileNode × Option Err)
    (h : buildTreeRun env numThreads minSize maxDepth topN fs path depth = .ok r) :
    buildTree env minSize maxDepth topN fs path depth = r := by
  unfold buildTreeRun at h
  split at h
  · cases h
  · simpa using h

/-! ## Scans that elide no bytes -/

theorem wrap64_add_congr {a a' b b' : Int} (ha : wrap64 a = wrap64 a')
    (hb : wrap64 b = wrap64 b') : wrap64 (a + b) = wrap64 (a' + b') := by
  unfold wrap64 at *
  omega

theorem wrap64_size64 (fs : FS) : wrap64 fs.size64 = wrap64 fs.bytes := by
  cases fs <;> simp [FS.size64, FS.bytes, wrap64_idem]

theorem size64_eq_zero_of_below (minSize : Int) (fs : FS) (h : fs.belowAreEmpty minSize = true)
    (hlt : fs.size64 < minSize) : fs.size64 = 0 := by
  cases fs with
  | file n s =>
    simp only [FS.belowAreEmpty, decide_eq_true_eq] at h
    exact h hlt
  | dir n es =>
    simp only [FS.belowAreEmpty, Bool.and_eq_true, decide_eq_true_eq] at h
    exact h.1 hlt
  | unreadable n => rfl
  | broken n => rfl

theorem buildChildren_sum_size64 (env : Env) (minSize maxDepth topN : Int) (path : String)
    (depth : Int) (es : List FS)
    (ih : ∀ e ∈ es, e.belowAreEmpty minSize = true → ∀ (p : String) (d : Int),
      (∃ err, lstat e = .error err)
      ∨ (buildTree env minSize maxDepth topN e p d = (none, none) ∧ e.size64 < minSize)
      ∨ ∃ node, buildTree env minSize maxDepth topN e p d = (some node, none) ∧
          node.Size = e.size64)
    (hb : belowAreEmptyList minSize es = true) :
    wrap64 ((buildChildren env minSize maxDepth topN es path depth).map FileNode.Size).sum
      = wrap64 (bytesList es) := by
  induction es with
  | nil => simp [buildChildren_nil, bytesList]
  | cons e es ihl =>
    simp only [belowAreEmptyList, Bool.and_eq_true] at hb
    have hrest := ihl (fun x hx => ih x (List.mem_cons_of_mem _ hx)) hb.2
    rw [buildChildren_cons]
    simp only [bytesList]
    rcases ih e (List.mem_cons_self _ _) hb.1 (env.join path e.name) (depth + 1)
      with ⟨err, herr⟩ | ⟨hnone, hlt⟩ | ⟨node, hnode, hsize⟩
    · have hbr : ∃ n, e = .broken n := by
        cases e <;> simp [lstat] at herr
        exact ⟨_, rfl⟩
      obtain ⟨n, rfl⟩ := hbr
      simp only [buildTree, FS.bytes, zero_add]
      exact hrest
    · have h0 := size64_eq_zero_of_below minSize e hb.1 hlt
      have hw := wrap64_size64 e
      rw [h0] at hw
      simp only [hnone]
      have := wrap64_add_congr hw hrest
      simpa using this
    · simp only [hnode, List.map_cons, List.sum_cons, hsize]
      exact wrap64_add_congr (wrap64_size64 e) hrest

/-- On a subtree in which what is below `minSize` is empty, a call on a path that `Lstat`
accepts elides the entry when its size is below `minSize` and otherwise returns a node with
the size of the entry, whatever `maxDepth`, `topN` and the depth are. -/
theorem buildTree_belowAreEmpty (env : Env) (hl : env.Lawful) (minSize maxDepth topN : Int)
    (fs : FS) : fs.belowAreEmpty minSize = true → ∀ (path : String) (depth : Int),
      (∃ err, lstat fs = .error err)
      ∨ (buildTree env minSize maxDepth topN fs path depth = (none, none) ∧
          fs.size64 < minSize)
      ∨ ∃ node, buildTree env minSize maxDepth topN fs path depth = (some node, none) ∧
          node.Size = fs.size64 := by
  have h0 : wrap64 0 = 0 := by decide
  induction fs using fs_induct with
  | hbr n => intro _ path depth; exact Or.inl ⟨_, rfl⟩
  | hfile n s =>
    intro _ path depth
    right
    simp only [buildTree, FS.size64]
    split
    · rename_i hlt
      exact Or.inl ⟨rfl, hlt⟩
    · exact Or.inr ⟨_, rfl, rfl⟩
  | hun n =>
    intro _ path depth
    right
    simp only [buildTree, getSize_eq, FS.bytes, h0, FS.size64]
    split
    · split
      · rename_i hlt
        exact Or.inl ⟨rfl, hlt⟩
      · exact Or.inr ⟨_, rfl, rfl⟩
    · exact Or.inr ⟨_, rfl, rfl⟩
  | hdir n es ih =>
    intro hb path depth
    right
    simp only [FS.belowAreEmpty, Bool.and_eq_true, decide_eq_true_eq] at hb
    simp only [FS.size64]
    by_cases hd : maxDepth ≥ 0 ∧ depth ≥ maxDepth
    · rw [buildTree_dir_cutoff env minSize maxDepth topN n es path depth hd, getSize_eq]
      simp only [FS.bytes]
      split
      · rename_i hlt
        exact Or.inl ⟨rfl, hlt⟩
      · exact Or.inr ⟨_, rfl, rfl⟩
    · rw [buildTree_dir_expand env minSize maxDepth topN n es path depth hd,
        sumSizes_perm (hl.arrival_perm _ _), sumSizes_eq,
        buildChildren_sum_size64 env minSize maxDepth topN path depth es ih hb.2]
      split
      · rename_i hlt
        exact Or.inl ⟨rfl, hlt⟩
      · exact Or.inr ⟨_, rfl, rfl⟩

/-- C10, as the code has it: on a filesystem tree in which no `Lstat` and no `ReadDir`
fails and whose file sizes are `int64` values, with `minSize <= 0`, in a scan that returns
(as every scan with `numThreads >= 1` does) and in which every entry below `minSize` has
size 0 (with `minSize <= 0`: no file size and no directory total, after `int64` wrap-around,
is below `minSize`), `buildTree` with unlimited depth and any `topN` returns a root node whose
`Size` is `getSize(path)`, the `int64` sum of the sizes of all non-directory entries of the
subtree, which is their exact sum when that fits an `int64`. -/
theorem unlimited_scan_size_eq_getSize (env : Env) (hl : env.Lawful)
    (numThreads minSize maxDepth topN : Int) (fs : FS) (path : String) (depth : Int)
    (hnt : 1 ≤ numThreads ∨ stops numThreads maxDepth fs depth = none)
    (hnf : fs.noFailure = true) (hr : fs.sizesInt64 = true)
    (hbe : fs.belowAreEmpty minSize = true) (hms : minSize ≤ 0) (_hmd : maxDepth < 0) :
    ∃ node,
      buildTreeRun env numThreads minSize maxDepth topN fs path depth = .ok (some node, none) ∧
      node.Size = (getSize fs).1 ∧ getSize fs = (wrap64 fs.bytes, none) ∧
      (-9223372036854775808 ≤ fs.bytes ∧ fs.bytes < 9223372036854775808 →
        (getSize fs).1 = fs.bytes) := by
  have hsz : fs.size64 = wrap64 fs.bytes := by
    cases fs with
    | file n s =>
      simp only [FS.sizesInt64, decide_eq_true_eq] at hr
      simp only [FS.size64, FS.bytes]
      exact (wrap64_of_inRange s hr.1 hr.2).symm
    | dir n es => rfl
    | unreadable n => simp [FS.noFailure] at hnf
    | broken n => simp [FS.noFailure] at hnf
  rw [buildTreeRun_of_returns env numThreads minSize maxDepth topN fs path depth hnt]
  rcases buildTree_belowAreEmpty env hl minSize maxDepth topN fs hbe path depth with
    ⟨err, herr⟩ | ⟨_, hlt⟩ | ⟨node, hnode, hsize⟩
  · cases fs <;> simp [lstat] at herr
    simp [FS.noFailure] at hnf
  · have := size64_eq_zero_of_below minSize fs hbe hlt
    omega
  · refine ⟨node, by rw [hnode], ?_, getSize_eq fs, ?_⟩
    · rw [getSize_eq, hsize, hsz]
    · intro hfit
      rw [getSize_eq]
      exact wrap64_of_inRange _ hfit.1 hfit.2

/-- C10 at the scenario with four threads: the scan and `getSize` both give 160 bytes. -/
theorem unlimited_scan_size_eq_getSize_witness :
    goEnv.Lawful ∧ scenario.noFailure = true ∧ scenario.sizesInt64 = true ∧
    scenario.belowAreEmpty 0 = true ∧
    ∃ node, buildTreeRun goEnv 4 0 (-1) 2 scenario "root" 0 = .ok (some node, none) ∧
      node.Size = (getSize scenario).1 ∧ getSize scenario = (wrap64 scenario.bytes, none) ∧
      (-9223372036854775808 ≤ scenario.bytes ∧ scenario.bytes < 9223372036854775808 →
        (getSize scenario).1 = scenario.bytes) :=
  ⟨goEnv_lawful, by decide, by decide, by decide,
    unlimited_scan_size_eq_getSize goEnv goEnv_lawful 4 0 (-1) 2 scenario "root" 0
      (Or.inl (by decide)) (by decide) (by decide) (by decide) (by decide) (by decide)⟩

/-- C10 fails as stated: nothing fails in `big` and `minSize` is 0, but its two files of
`2^62` bytes add up to `-2^63` in `int64`, so `getSize` is negative and the scan elides the
root; and with `numThreads = 0` or `-1` the scan of the scenario does not return. -/
theorem unlimited_scan_without_root :
    big.noFailure = true ∧
    buildTreeRun goEnv 4 0 (-1) 0 big "big" 0 = .ok (none, none) ∧
    getSize big = (-9223372036854775808, none) ∧
    scenario.noFailure = true ∧
    buildTreeRun goEnv 0 0 (-1) 0 scenario "root" 0 = .error .deadlock ∧
    buildTreeRun goEnv (-1) 0 (-1) 0 scenario "root" 0 = .error .panic :=
  ⟨by decide, by rfl, by rfl, by decide, by rfl, by rfl⟩

/-- C6, as the code has it: with `maxDepth = d >= 0` no node at recursion depth `>= d` of a
returned tree has children, and a directory node returned by a call at such a depth has as
`Size` what `getSize` gives, the `int64` byte total of the subtree. When every entry of the
subtree that is below `minSize` has size 0, a scan of the same subtree with unlimited depth
that returns, as every scan with `numThreads >= 1` does, returns a node of that `Size`. -/
theorem depth_cutoff_size (env : Env) (hl : env.Lawful)
    (numThreads minSize maxDepth topN : Int) (hmd : 0 ≤ maxDepth) :
    (∀ (fs : FS) (path : String) (depth : Int),
      ∀ p ∈ resultNodes depth (buildTree env minSize maxDepth topN fs path depth),
        p.1 ≥ maxDepth → p.2.Children = [])
    ∧ (∀ (sub : FS) (path : String) (k : Int) (node : FileNode), k ≥ maxDepth →
        buildTree env minSize maxDepth topN sub path k = (some node, none) →
        node.IsDir = true →
          node.Size = (getSize sub).1 ∧ (getSize sub).1 = wrap64 sub.bytes ∧
          (sub.belowAreEmpty minSize = true → ∀ (path' : String) (k' : Int),
            1 ≤ numThreads ∨ stops numThreads (-1) sub k' = none →
              ∃ node', buildTreeRun env numThreads minSize (-1) topN sub path' k'
                  = .ok (some node', none) ∧
                node'.Size = node.Size)) := by
  constructor
  · intro fs path depth
    refine forall_nodes env hl minSize maxDepth topN
      (fun d node => d ≥ maxDepth → node.Children = []) ?_ fs path depth
    intro fs path depth node h hge
    rcases buildTree_some env minSize maxDepth topN fs path depth node h with
      ⟨n, s, _, _, rfl⟩ | ⟨n, _, hd, _, rfl⟩ | ⟨n, _, _, rfl⟩ | ⟨n, es, _, hd, _, rfl⟩
        | ⟨n, es, _, hd, _, rfl⟩
    · rfl
    · rfl
    · rfl
    · rfl
    · omega
  · intro sub path k node hk h hdir
    have hcut : maxDepth ≥ 0 ∧ k ≥ maxDepth := ⟨hmd, hk⟩
    have hsize : node.Size = (getSize sub).1 ∧ ¬ (getSize sub).1 < minSize ∧
        sub.size64 = (getSize sub).1 := by
      have h0 : wrap64 0 = 0 := by decide
      rcases buildTree_some env minSize maxDepth topN sub path k node h with
        ⟨n, s, _, _, rfl⟩ | ⟨n, hs, hd, hge, rfl⟩ | ⟨n, _, hd, rfl⟩
          | ⟨n, es, hs, hd, hge, rfl⟩ | ⟨n, es, _, hd, _, rfl⟩
      · simp [FileNode.IsDir] at hdir
      · subst hs
        exact ⟨rfl, hge, by simp [getSize_eq, FS.size64, FS.bytes, h0]⟩
      · exact absurd hcut hd
      · subst hs
        exact ⟨rfl, hge, by simp [getSize_eq, FS.size64, FS.bytes]⟩
      · exact absurd hcut hd
    refine ⟨hsize.1, by rw [getSize_eq], ?_⟩
    intro hbe path' k' hnt
    rw [buildTreeRun_of_returns env numThreads minSize (-1) topN sub path' k' hnt]
    rcases buildTree_belowAreEmpty env hl minSize (-1) topN sub hbe path' k' with
      ⟨err, herr⟩ | ⟨_, hlt⟩ | ⟨node', hnode', hsize'⟩
    · cases sub <;> simp [lstat] at herr
      simp [buildTree] at h
    · rw [hsize.2.2] at hlt
      exact absurd hlt hsize.2.1
    · exact ⟨node', by rw [hnode'], by rw [hsize', hsize.2.2, hsize.1]⟩

/-- C6 at the scenario cut at depth 0 with `minSize = 5` and four threads: 160 bytes, as in
the unlimited scan, in which no entry is below 5 bytes. -/
theorem depth_cutoff_size_witness :
    goEnv.Lawful ∧ (0 : Int) ≤ 0 ∧
    buildTree goEnv 5 0 0 scenario "root" 0 = (some (.mk "root" "root" 160 true []), none) ∧
    scenario.belowAreEmpty 5 = true ∧
    ∃ node', buildTreeRun goEnv 4 5 (-1) 0 scenario "root" 0 = .ok (some node', none) ∧
      node'.Size = 160 :=
  ⟨goEnv_lawful, by decide, rfl, by decide,
    ((depth_cutoff_size goEnv goEnv_lawful 4 5 0 0 (by decide)).2 scenario "root" 0
      (.mk "root" "root" 160 true []) (by decide) (by rfl) rfl).2.2 (by decide)
      "root" 0 (Or.inl (by decide))⟩

/-- C6 fails as stated: with `minSize = 60` the scenario cut at depth 0 is a node of `Size`
160, while the scan with unlimited depth, which elides `b` and `sub`, gives the root 100; and
with `numThreads = 0` the scan cut at depth 0 returns that node while the scan with unlimited
depth does not return. -/
theorem depth_cutoff_size_ne_unlimited :
    buildTree goEnv 60 0 0 scenario "root" 0 = (some (.mk "root" "root" 160 true []), none) ∧
    buildTree goEnv 60 (-1) 0 scenario "root" 0
      = (some (.mk "root" "root" 100 true [.mk "a" "root/a" 100 false []]), none) ∧
    (160 : Int) ≠ 100 ∧
    buildTreeRun goEnv 0 0 0 0 scenario "root" 0
      = .ok (some (.mk "root" "root" 160 true []), none) ∧
    buildTreeRun goEnv 0 0 (-1) 0 scenario "root" 0 = .error .deadlock :=
  ⟨rfl, rfl, by decide, by rfl, by rfl⟩

/-! ## Arrival order -/

theorem truncate_sizes (topN : Int) {l₁ l₂ : List FileNode}
    (h : l₁.map FileNode.Size = l₂.map FileNode.Size) :
    (truncate topN l₁).map FileNode.Size = (truncate topN l₂).map FileNode.Size := by
  have hlen : l₁.length = l₂.length := by
    simpa using congrArg List.length h
  unfold truncate
  rw [hlen]
  split
  · rw [List.map_take, List.map_take, h]
  · exact h

theorem sorted_sizes_eq (env₁ env₂ : Env) (hl₁ : env₁.Lawful) (hl₂ : env₂.Lawful)
    (p₁ p₂ : String) {l₁ l₂ : List FileNode}
    (h : l₁.map FileNode.Size = l₂.map FileNode.Size) :
    (env₁.sortSlice (env₁.arrival p₁ l₁)).map FileNode.Size
      = (env₂.sortSlice (env₂.arrival p₂ l₂)).map FileNode.Size := by
  have hperm₁ := ((hl₁.sortSlice_perm _).trans (hl₁.arrival_perm p₁ l₁)).map FileNode.Size
  have hperm₂ := ((hl₂.sortSlice_perm _).trans (hl₂.arrival_perm p₂ l₂)).map FileNode.Size
  rw [h] at hperm₁
  have hs₁ : ((env₁.sortSlice (env₁.arrival p₁ l₁)).map FileNode.Size).Pairwise
      (fun a b => a ≥ b) := by
    rw [List.pairwise_map]
    exact (hl₁.sortSlice_sorted _).imp (fun hab => by omega)
  have hs₂ : ((env₂.sortSlice (env₂.arrival p₂ l₂)).map FileNode.Size).Pairwise
      (fun a b => a ≥ b) := by
    rw [List.pairwise_map]
    exact (hl₂.sortSlice_sorted _).imp (fun hab => by omega)
  exact List.eq_of_perm_of_sorted (hperm₁.trans hperm₂.symm) hs₁ hs₂

theorem buildChildren_congr_mem (env₁ env₂ : Env) (hj : env₁.join = env₂.join)
    (minSize maxDepth topN : Int) (path : String) (depth : Int) (es : List FS) (c : FileNode)
    (e : FS) (he : e ∈ es)
    (h₁ : buildTree env₁ minSize maxDepth topN e (env₁.join path e.name) (depth + 1)
      = (some c, none))
    (h : buildTree env₁ minSize maxDepth topN e (env₁.join path e.name) (depth + 1)
      = buildTree env₂ minSize maxDepth topN e (env₁.join path e.name) (depth + 1)) :
    c ∈ buildChildren env₂ minSize maxDepth topN es path depth := by
  rw [mem_buildChildren]
  refine ⟨e, he, ?_⟩
  rw [← hj, ← h, h₁]

theorem truncate_eq_take (topN : Int) (l : List FileNode) :
    truncate topN l = l.take (truncate topN l).length := by
  unfold truncate
  split
  · rw [List.length_take, List.take_eq_take]
    omega
  · rw [List.take_length]

theorem untiedPrefix_cons (k : Nat) (a : Int) (t : List Int) :
    untiedPrefix (k + 1) (a :: t) = true ↔ (∀ b ∈ t, a ≠ b) ∧ untiedPrefix k t = true := by
  simp [untiedPrefix]

/-- Two lists with the same sizes, position by position, have the same first `k` elements
when none of the first `k` sizes occurs twice and the first `k` elements of the one occur in
the other. -/
theorem take_eq_of_untied (k : Nat) : ∀ (s₁ s₂ : List FileNode),
    s₁.map FileNode.Size = s₂.map FileNode.Size →
    untiedPrefix k (s₁.map FileNode.Size) = true →
    (∀ c ∈ s₁.take k, c ∈ s₂) → s₁.take k = s₂.take k := by
  induction k with
  | zero => intro s₁ s₂ _ _ _; simp
  | succ k ih =>
    intro s₁ s₂ hmap hu hmem
    cases s₁ with
    | nil =>
      cases s₂ with
      | nil => rfl
      | cons b t₂ => simp at hmap
    | cons a t₁ =>
      cases s₂ with
      | nil => simp at hmap
      | cons b t₂ =>
        simp only [List.map_cons, List.cons.injEq] at hmap
        rw [List.map_cons, untiedPrefix_cons] at hu
        have hnot : ∀ x ∈ t₁, a.Size ≠ x.Size := fun x hx =>
          hu.1 x.Size (List.mem_map_of_mem _ hx)
        have hab : a = b := by
          have ha := hmem a (by simp)
          rcases List.mem_cons.mp ha with h | h
          · exact h
          · exfalso
            have : a.Size ∈ t₁.map FileNode.Size := by
              rw [hmap.2]
              exact List.mem_map_of_mem _ h
            obtain ⟨x, hx, hxs⟩ := List.mem_map.mp this
            exact hnot x hx hxs.symm
        subst hab
        simp only [List.take_succ_cons, List.cons.injEq, true_and]
        apply ih t₁ t₂ hmap.2 hu.2
        intro c hc
        have hc' := hmem c (by simp only [List.take_succ_cons, List.mem_cons]; exact Or.inr hc)
        rcases List.mem_cons.mp hc' with h | h
        · exfalso
          subst h
          exact hnot c (List.mem_of_mem_take hc) rfl
        · exact h

theorem keptUntiedList_mem (env : Env) (minSize maxDepth topN : Int) (keptSizes : List Int)
    (path : String) (depth : Int) (es : List FS)
    (h : keptUntiedList env minSize maxDepth topN keptSizes es path depth = true)
    (e : FS) (he : e ∈ es) (c : FileNode)
    (hc : buildTree env minSize maxDepth topN e (env.join path e.name) (depth + 1)
      = (some c, none))
    (hk : c.Size ∈ keptSizes) :
    keptUntied env minSize maxDepth topN e (env.join path e.name) (depth + 1) = true := by
  induction es with
  | nil => simp at he
  | cons x xs ih =>
    simp only [keptUntiedList, Bool.and_eq_true] at h
    rcases List.mem_cons.mp he with rfl | hx
    · have h1 := h.1
      simp only [hc, hk, if_true] at h1
      exact h1
    · exact ih h.2 hx

/-- If in every directory of the tree returned under one environment no kept child has the
`Size` of another child sent to that directory, the call returns the same result under any
other environment with the same `Join`, whatever its arrival order and its sort. -/
theorem tree_eq_of_kept_untied (env₁ env₂ : Env) (hl₁ : env₁.Lawful) (hl₂ : env₂.Lawful)
    (hj : env₁.join = env₂.join) (minSize maxDepth topN : Int) (fs : FS) :
    ∀ (path : String) (depth : Int),
      keptUntied env₁ minSize maxDepth topN fs path depth = true →
      buildTree env₁ minSize maxDepth topN fs path depth
        = buildTree env₂ minSize maxDepth topN fs path depth := by
  induction fs using fs_induct with
  | hbr n => intro path depth _; simp [buildTree]
  | hfile n s => intro path depth _; simp [buildTree]
  | hun n => intro path depth _; simp [buildTree]
  | hdir n es ih =>
    intro path depth hu
    by_cases hd : maxDepth ≥ 0 ∧ depth ≥ maxDepth
    · rw [buildTree_dir_cutoff env₁ minSize maxDepth topN n es path depth hd,
        buildTree_dir_cutoff env₂ minSize maxDepth topN n es path depth hd]
    · have hsizes := buildChildren_sizes env₁ env₂ minSize maxDepth topN topN path path depth
        es (fun e _ p₁ p₂ d =>
          size_indep env₁ env₂ hl₁ hl₂ minSize maxDepth topN topN e p₁ p₂ d)
      have hS : sumSizes (env₂.arrival path
          (buildChildren env₂ minSize maxDepth topN es path depth))
          = sumSizes (env₁.arrival path
          (buildChildren env₁ minSize maxDepth topN es path depth)) := by
        rw [sumSizes_perm (hl₁.arrival_perm _ _), sumSizes_perm (hl₂.arrival_perm _ _)]
        exact (sumSizes_of_map_eq hsizes).symm
      rw [buildTree_dir_expand env₁ minSize maxDepth topN n es path depth hd,
        buildTree_dir_expand env₂ minSize maxDepth topN n es path depth hd, hS]
      by_cases hel : sumSizes (env₁.arrival path
          (buildChildren env₁ minSize maxDepth topN es path depth)) < minSize
      · rw [if_pos hel, if_pos hel]
      · rw [if_neg hel, if_neg hel]
        simp only [keptUntied, hd, hel, if_false, Bool.and_eq_true] at hu
        have hmap := sorted_sizes_eq env₁ env₂ hl₁ hl₂ path path hsizes
        have hperm₁ : (env₁.sortSlice (env₁.arrival path
            (buildChildren env₁ minSize maxDepth topN es path depth))).Perm
            (buildChildren env₁ minSize maxDepth topN es path depth) :=
          (hl₁.sortSlice_perm _).trans (hl₁.arrival_perm _ _)
        have hperm₂ : (env₂.sortSlice (env₂.arrival path
            (buildChildren env₂ minSize maxDepth topN es path depth))).Perm
            (buildChildren env₂ minSize maxDepth topN es path depth) :=
          (hl₂.sortSlice_perm _).trans (hl₂.arrival_perm _ _)
        -- every kept child is sent under the other environment too
        have hkept : ∀ c ∈ (env₁.sortSlice (env₁.arrival path
            (buildChildren env₁ minSize maxDepth topN es path depth))).take
            (truncate topN (env₁.sortSlice (env₁.arrival path
              (buildChildren env₁ minSize maxDepth topN es path depth)))).length,
            c ∈ env₂.sortSlice (env₂.arrival path
              (buildChildren env₂ minSize maxDepth topN es path depth)) := by
          intro c hc
          rw [← truncate_eq_take] at hc
          have hc₁ := hperm₁.mem_iff.mp (mem_truncate hc)
          obtain ⟨e, he, hbe⟩ :=
            (mem_buildChildren env₁ minSize maxDepth topN path depth c es).mp hc₁
          have hue := keptUntiedList_mem env₁ minSize maxDepth topN _ path depth es hu.2 e he c
            hbe (List.mem_map_of_mem _ hc)
          have heq := ih e he (env₁.join path e.name) (depth + 1) hue
          exact hperm₂.mem_iff.mpr
            (buildChildren_congr_mem env₁ env₂ hj minSize maxDepth topN path depth es c e he
              hbe heq)
        have htake := take_eq_of_untied _ _ _ hmap hu.1 hkept
        have hlen : (truncate topN (env₂.sortSlice (env₂.arrival path
            (buildChildren env₂ minSize maxDepth topN es path depth)))).length
            = (truncate topN (env₁.sortSlice (env₁.arrival path
            (buildChildren env₁ minSize maxDepth topN es path depth)))).length := by
          have := congrArg List.length (truncate_sizes topN hmap)
          simpa using this.symm
        have hchildren : truncate topN (env₁.sortSlice (env₁.arrival path
            (buildChildren env₁ minSize maxDepth topN es path depth)))
            = truncate topN (env₂.sortSlice (env₂.arrival path
            (buildChildren env₂ minSize maxDepth topN es path depth))) := by
          rw [truncate_eq_take topN (env₁.sortSlice _), truncate_eq_take topN (env₂.sortSlice _),
            hlen]
          exact htake
        rw [hchildren]

/-- C7, as the code has it. Under any two environments with the same `Join`, whatever their
arrival orders and sorts, a call returns the same error, elides or not alike, and returns
nodes of the same `Size` whose children have the same sequence of `Size`s; and if in every
directory of the tree returned under one of them no kept child has the `Size` of another
child sent to that directory, the two calls return the same tree. -/
theorem tree_indep_of_arrival (env₁ env₂ : Env) (hl₁ : env₁.Lawful) (hl₂ : env₂.Lawful)
    (hj : env₁.join = env₂.join) (minSize maxDepth topN : Int) (fs : FS) (path : String)
    (depth : Int) :
    ((buildTree env₁ minSize maxDepth topN fs path depth).2
        = (buildTree env₂ minSize maxDepth topN fs path depth).2
      ∧ (buildTree env₁ minSize maxDepth topN fs path depth).1.map
          (fun t => (t.Size, t.Children.map FileNode.Size))
        = (buildTree env₂ minSize maxDepth topN fs path depth).1.map
          (fun t => (t.Size, t.Children.map FileNode.Size)))
    ∧ (keptUntied env₁ minSize maxDepth topN fs path depth = true →
        buildTree env₁ minSize maxDepth topN fs path depth
          = buildTree env₂ minSize maxDepth topN fs path depth) := by
  refine ⟨?_, tree_eq_of_kept_untied env₁ env₂ hl₁ hl₂ hj minSize maxDepth topN fs path depth⟩
  cases fs with
  | broken n => simp [buildTree]
  | file n s => simp [buildTree]
  | unreadable n => simp [buildTree]
  | dir n es =>
    by_cases hd : maxDepth ≥ 0 ∧ depth ≥ maxDepth
    · rw [buildTree_dir_cutoff env₁ minSize maxDepth topN n es path depth hd,
        buildTree_dir_cutoff env₂ minSize maxDepth topN n es path depth hd]
      exact ⟨rfl, rfl⟩
    · have hsizes := buildChildren_sizes env₁ env₂ minSize maxDepth topN topN path path depth
        es (fun e _ p₁ p₂ d =>
          size_indep env₁ env₂ hl₁ hl₂ minSize maxDepth topN topN e p₁ p₂ d)
      have hS : sumSizes (env₁.arrival path
          (buildChildren env₁ minSize maxDepth topN es path depth))
          = sumSizes (env₂.arrival path
          (buildChildren env₂ minSize maxDepth topN es path depth)) := by
        rw [sumSizes_perm (hl₁.arrival_perm _ _), sumSizes_perm (hl₂.arrival_perm _ _)]
        exact sumSizes_of_map_eq hsizes
      have hkids := truncate_sizes topN
        (sorted_sizes_eq env₁ env₂ hl₁ hl₂ path path hsizes)
      rw [buildTree_dir_expand env₁ minSize maxDepth topN n es path depth hd,
        buildTree_dir_expand env₂ minSize maxDepth topN n es path depth hd, hS]
      split
      · exact ⟨rfl, rfl⟩
      · simp only [Option.map_some', FileNode.Size, FileNode.Children, hkids, and_self]

/-- C7 at the scenario with `topN = 2`, and at a directory whose two smallest files tie and
are dropped by `topN = 1`: the same tree whether the children arrive in listing order or in
reverse. -/
theorem tree_indep_of_arrival_witness :
    goEnv.Lawful ∧ goEnvRev.Lawful ∧ goEnv.join = goEnvRev.join ∧
    keptUntied goEnv 0 (-1) 2 scenario "root" 0 = true ∧
    buildTree goEnv 0 (-1) 2 scenario "root" 0
      = buildTree goEnvRev 0 (-1) 2 scenario "root" 0 ∧
    keptUntied goEnv 0 (-1) 1 smallTies "root" 0 = true ∧
    buildTree goEnv 0 (-1) 1 smallTies "root" 0
      = buildTree goEnvRev 0 (-1) 1 smallTies "root" 0 :=
  ⟨goEnv_lawful, goEnvRev_lawful, rfl, by decide,
    (tree_indep_of_arrival goEnv goEnvRev goEnv_lawful goEnvRev_lawful rfl 0 (-1) 2 scenario
      "root" 0).2 (by decide),
    by decide,
    (tree_indep_of_arrival goEnv goEnvRev goEnv_lawful goEnvRev_lawful rfl 0 (-1) 1 smallTies
      "root" 0).2 (by decide)⟩

/-- C7 fails as stated: `a` and `b` have 10 bytes each. When they arrive as `a, b` the sort
leaves `a` first and `topN = 1` keeps `a`; when they arrive as `b, a` it is `b` that comes
first and is kept. The two runs differ in nothing but the arrival order. -/
theorem tree_depends_on_arrival :
    goEnv.join = goEnvRev.join ∧ goEnv.sortSlice = goEnvRev.sortSlice ∧
    buildTree goEnv 0 (-1) 0 ties "root" 0
      = (some (.mk "root" "root" 20 true
          [.mk "a" "root/a" 10 false [], .mk "b" "root/b" 10 false []]), none) ∧
    buildTree goEnvRev 0 (-1) 0 ties "root" 0
      = (some (.mk "root" "root" 20 true
          [.mk "b" "root/b" 10 false [], .mk "a" "root/a" 10 false []]), none) ∧
    buildTree goEnv 0 (-1) 1 ties "root" 0
      = (some (.mk "root" "root" 20 true [.mk "a" "root/a" 10 false []]), none) ∧
    buildTree goEnvRev 0 (-1) 1 ties "root" 0
      = (some (.mk "root" "root" 20 true [.mk "b" "root/b" 10 false []]), none) ∧
    buildTree goEnv 0 (-1) 1 ties "root" 0 ≠ buildTree goEnvRev 0 (-1) 1 ties "root" 0 :=
  ⟨rfl, rfl, rfl, rfl, rfl, rfl, fun h =>
    absurd (congrArg (fun r => r.1.map (fun t => t.Children.map FileNode.Name)) h)
      (by decide)⟩

/-! ## The admission gate -/

theorem slotsWithinList_iff (n : Int) (l : List Call) :
    slotsWithinList n l = true ↔ ∀ c ∈ l, c.slotsWithin n = true := by
  induction l with
  | nil => simp [slotsWithinList]
  | cons c cs ih => simp [slotsWithinList, ih]

theorem slotsWithin_start (n maxDepth depth : Int) (fs : FS) (h : 0 ≤ n) :
    (Call.start maxDepth depth fs).slotsWithin n = true := by
  cases fs with
  | dir name es =>
    simp only [Call.start]
    split <;> simp [Call.slotsWithin, slotsWithinList, h]
  | file name s => simp [Call.start, Call.slotsWithin, slotsWithinList, h]
  | unreadable name => simp [Call.start, Call.slotsWithin, slotsWithinList, h]
  | broken name => simp [Call.start, Call.slotsWithin, slotsWithinList, h]

theorem slotsWithin_step (n maxDepth : Int) (m : Move) :
    ∀ (c c1 : Call), c.slotsWithin n = true → step n maxDepth c m = some c1 →
      c1.slotsWithin n = true := by
  induction m with
  | spawn =>
    intro c c1 hc hs
    cases c with
    | mk depth pending running =>
      cases pending with
      | nil => simp [step] at hs
      | cons e es =>
        simp only [step] at hs
        split at hs
        · rename_i hlt
          simp only [Option.some.injEq] at hs
          subst hs
          simp only [Call.slotsWithin, Bool.and_eq_true, decide_eq_true_eq,
            slotsWithinList_iff] at hc ⊢
          refine ⟨by simp only [List.length_append, List.length_singleton]; omega, ?_⟩
          intro x hx
          rcases List.mem_append.mp hx with hx | hx
          · exact hc.2 x hx
          · rw [List.mem_singleton] at hx
            subst hx
            exact slotsWithin_start n maxDepth _ e (by omega)
        · simp at hs
  | finish i =>
    intro c c1 hc hs
    cases c with
    | mk depth pending running =>
      simp only [step] at hs
      split at hs
      · split at hs
        · simp only [Option.some.injEq] at hs
          subst hs
          simp only [Call.slotsWithin, Bool.and_eq_true, decide_eq_true_eq,
            slotsWithinList_iff] at hc ⊢
          refine ⟨?_, fun x hx => hc.2 x (List.mem_of_mem_eraseIdx hx)⟩
          have := List.length_eraseIdx_le running i
          omega
        · simp at hs
      · simp at hs
  | inside i m ih =>
    intro c c1 hc hs
    cases c with
    | mk depth pending running =>
      simp only [step] at hs
      split at hs
      · rename_i c0 hget
        split at hs
        · rename_i c2 hstep
          simp only [Option.some.injEq] at hs
          subst hs
          simp only [Call.slotsWithin, Bool.and_eq_true, decide_eq_true_eq,
            slotsWithinList_iff] at hc ⊢
          refine ⟨by rw [List.length_set]; exact hc.1, ?_⟩
          intro x hx
          rcases List.mem_or_eq_of_mem_set hx with hx | hx
          · exact hc.2 x hx
          · subst hx
            exact ih c0 x (hc.2 c0 (List.get?_mem hget)) hstep
        · simp at hs
      · simp at hs

theorem slotsWithin_run (numThreads maxDepth : Int) (moves : List Move) :
    ∀ (c c1 : Call), c.slotsWithin numThreads = true →
      run numThreads maxDepth c moves = some c1 → c1.slotsWithin numThreads = true := by
  induction moves with
  | nil =>
    intro c c1 hc hr
    simp only [run, Option.some.injEq] at hr
    subst hr
    exact hc
  | cons m ms ih =>
    intro c c1 hc hr
    simp only [run] at hr
    split at hr
    · rename_i c2 hstep
      exact ih c2 c1 (slotsWithin_step numThreads maxDepth m c c2 hc hstep) hr
    · simp at hr

/-- What the gate does bound: in every state a scan reaches, each call of `buildTree` has at
most `numThreads` of its own goroutines in flight. -/
theorem slotsWithin_reachable (numThreads maxDepth depth : Int) (fs : FS)
    (h0 : 0 ≤ numThreads) (moves : List Move) (c : Call)
    (h : run numThreads maxDepth (Call.start maxDepth depth fs) moves = some c) :
    c.slotsWithin numThreads = true :=
  slotsWithin_run numThreads maxDepth moves _ c
    (slotsWithin_start numThreads maxDepth depth fs h0) h

mutual
theorem call_induct {P : Call → Prop}
    (hmk : ∀ depth pending running, (∀ r ∈ running, P r) → P (.mk depth pending running)) :
    ∀ c, P c
  | .mk depth pending running => hmk depth pending running (call_induct_list hmk running)
theorem call_induct_list {P : Call → Prop}
    (hmk : ∀ depth pending running, (∀ r ∈ running, P r) → P (.mk depth pending running)) :
    ∀ rs : List Call, ∀ r ∈ rs, P r
  | [], _, h => absurd h (List.not_mem_nil _)
  | r :: rs, x, h =>
    (List.mem_cons.mp h).elim (fun hx => hx ▸ call_induct hmk r)
      (fun hx => call_induct_list hmk rs x hx)
end

/-- With `numThreads >= 1` a scan is never stuck: a call that has not returned can move. -/
theorem step_progress (numThreads maxDepth : Int) (h1 : 1 ≤ numThreads) (c : Call) :
    c.done = false → ∃ m c1, step numThreads maxDepth c m = some c1 := by
  induction c using call_induct with
  | hmk depth pending running ih =>
    intro hnd
    cases running with
    | nil =>
      cases pending with
      | nil => simp [Call.done] at hnd
      | cons e es =>
        refine ⟨.spawn, .mk depth es ([] ++ [Call.start maxDepth (depth + 1) e]), ?_⟩
        simp only [step, List.length_nil, Nat.cast_zero]
        rw [if_pos (by omega)]
    | cons r rs =>
      by_cases hr : r.done = true
      · exact ⟨.finish 0, .mk depth pending rs, by simp [step, hr]⟩
      · obtain ⟨m, c1, hm⟩ := ih r (List.mem_cons_self _ _) (by simpa using hr)
        exact ⟨.inside 0 m, .mk depth pending (c1 :: rs), by simp [step, hm]⟩

/-- With `numThreads <= 0` the first send on `sem` is never served: a call that has entries
to go through cannot move. -/
theorem step_stuck (numThreads maxDepth depth : Int) (h0 : numThreads ≤ 0) (e : FS)
    (es : List FS) (m : Move) :
    step numThreads maxDepth (.mk depth (e :: es) []) m = none := by
  cases m with
  | spawn =>
    simp only [step, List.length_nil, Nat.cast_zero]
    rw [if_neg (by omega)]
  | finish i => simp [step]
  | inside i m => simp [step]

theorem workList_append (l₁ l₂ : List Call) :
    workList (l₁ ++ l₂) = workList l₁ + workList l₂ := by
  induction l₁ with
  | nil => simp [workList]
  | cons c cs ih =>
    rw [List.cons_append]
    simp only [workList]
    rw [ih]
    omega

theorem workList_eraseIdx (l : List Call) (i : Nat) (c : Call) (h : l.get? i = some c) :
    workList (l.eraseIdx i) + 1 + c.work = workList l := by
  induction l generalizing i with
  | nil => simp at h
  | cons x xs ih =>
    cases i with
    | zero =>
      simp only [List.get?_cons_zero, Option.some.injEq] at h
      subst h
      simp only [List.eraseIdx_cons_zero, workList]
      omega
    | succ i =>
      simp only [List.get?_cons_succ] at h
      simp only [List.eraseIdx_cons_succ, workList]
      have := ih i h
      omega

theorem workList_set (l : List Call) (i : Nat) (c c1 : Call) (h : l.get? i = some c) :
    workList (l.set i c1) + c.work = workList l + c1.work := by
  induction l generalizing i with
  | nil => simp at h
  | cons x xs ih =>
    cases i with
    | zero =>
      simp only [List.get?_cons_zero, Option.some.injEq] at h
      subst h
      simp only [List.set_cons_zero, workList]
      omega
    | succ i =>
      simp only [List.get?_cons_succ] at h
      simp only [List.set_cons_succ, workList]
      have := ih i h
      omega

theorem work_start (maxDepth depth : Int) (e : FS) :
    (Call.start maxDepth depth e).work + 2 ≤ e.weight := by
  cases e with
  | dir n es =>
    simp only [Call.start]
    split <;> simp only [Call.work, workList, FS.weight, weightList] <;> omega
  | file n s => simp [Call.start, Call.work, workList, FS.weight, weightList]
  | unreadable n => simp [Call.start, Call.work, workList, FS.weight, weightList]
  | broken n => simp [Call.start, Call.work, workList, FS.weight, weightList]

/-- Every move uses up work: a scan makes at most `Call.work` moves, so with `step_progress`
every scan run with `numThreads >= 1` comes to its end. -/
theorem step_work (numThreads maxDepth : Int) (m : Move) :
    ∀ (c c1 : Call), step numThreads maxDepth c m = some c1 → c1.work < c.work := by
  induction m with
  | spawn =>
    intro c c1 hs
    cases c with
    | mk depth pending running =>
      cases pending with
      | nil => simp [step] at hs
      | cons e es =>
        simp only [step] at hs
        split at hs
        · simp only [Option.some.injEq] at hs
          subst hs
          have := work_start maxDepth (depth + 1) e
          simp only [Call.work, weightList, workList_append, workList]
          omega
        · simp at hs
  | finish i =>
    intro c c1 hs
    cases c with
    | mk depth pending running =>
      simp only [step] at hs
      split at hs
      · rename_i c0 hget
        split at hs
        · simp only [Option.some.injEq] at hs
          subst hs
          have := workList_eraseIdx running i c0 hget
          simp only [Call.work]
          omega
        · simp at hs
      · simp at hs
  | inside i m ih =>
    intro c c1 hs
    cases c with
    | mk depth pending running =>
      simp only [step] at hs
      split at hs
      · rename_i c0 hget
        split at hs
        · rename_i c2 hstep
          simp only [Option.some.injEq] at hs
          subst hs
          have := workList_set running i c0 c2 hget
          have := ih c0 c2 hstep
          simp only [Call.work]
          omega
        · simp at hs
      · simp at hs

/-- C9 fails on the code: `sem` is made anew by every call of `buildTree`, so a goroutine
holds a slot of its parent's channel and hands out the slots of its own. With
`numThreads = 1`, once `root` has started the goroutine of `A` and `A` that of `f`, two
goroutines are in flight. -/
theorem inFlight_exceeds_numThreads :
    (run 1 (-1) (Call.start (-1) 0 nested) [.spawn, .inside 0 .spawn]).map Call.inFlight
      = some 2 ∧
    run 1 (-1) (Call.start (-1) 0 nested) [.spawn, .inside 0 .spawn]
      = some (.mk 0 [] [.mk 1 [] [.mk 2 [] []]]) :=
  ⟨by decide, rfl⟩

end TreeSize
